import Mathlib

/-!
Verification of the heuristic state-space search framework (8-puzzle repository).

This file embeds the core data model (`Problem`, `Node`, `SearchResult`), the six
search algorithms (`AStarSearch`, `GreedyBestFirstSearch`, `HillClimbingSearch`,
`SimulatedAnnealingSearch`, `IDAStarSearch`, `GeneticAlgorithmSearch`), the
sliding-puzzle domain and the heuristics, and proves the stated properties.

Modelling conventions:
- Python floats are modelled by `ℚ` (all arithmetic the algorithms perform on
  costs/heuristics is exact in the source); `float('inf')` by `⊤ : WithTop ℚ`.
- Wall-clock `runtime` is omitted from `SearchResult` (real time is not statable).
- The unbounded `while` loops are modelled with an explicit fuel parameter; an
  exhausted fuel returns a failure result, so all success-conditioned theorems
  are fuel-independent partial-correctness statements.
- Python's global random source is modelled by an explicit generator interface
  (`RandGen`): `random.choice(xs)` draws a natural `n` and picks `xs[n % len xs]`,
  `random.random()` draws a rational, `random.randint(a,b)` draws a natural `n`
  and yields `a + n % (b - a + 1)`.
- `math.exp` is modelled by an abstract function parameter `mexp : ℚ → ℚ`; the
  theorems about simulated annealing hold for every such model of `exp`.
-/

/-- The abstract `Problem` contract (src/core/problem.py): state type `σ`,
action type `α`, dedup key type `κ`. -/
structure Problem (σ α κ : Type) where
  initial : σ
  actions : σ → List α
  result : σ → α → σ
  step_cost : σ → α → σ → ℚ
  is_goal : σ → Bool
  state_key : σ → κ

/-- The `Node` path element (src/core/node.py): either a root
(`Node(state)`: no parent, no action, cost 0, depth 0) or a child with a
parent link, incoming action, accumulated path cost and depth. -/
inductive Node (σ α : Type) : Type where
  | root (state : σ)
  | child (state : σ) (parent : Node σ α) (action : α) (path_cost : ℚ) (depth : ℕ)
deriving DecidableEq

namespace Node

/-- State stored in the node. -/
def state : Node σ α → σ
  | .root s => s
  | .child s _ _ _ _ => s

/-- Accumulated path cost (`path_cost`, 0 for a root). -/
def path_cost : Node σ α → ℚ
  | .root _ => 0
  | .child _ _ _ c _ => c

/-- Depth (0 for a root). -/
def depth : Node σ α → ℕ
  | .root _ => 0
  | .child _ _ _ _ d => d

/-- Parent link (`None` for a root). -/
def parentOpt : Node σ α → Option (Node σ α)
  | .root _ => none
  | .child _ p _ _ _ => some p

/-- Incoming action (`None` for a root). -/
def actionOpt : Node σ α → Option α
  | .root _ => none
  | .child _ _ a _ _ => some a

/-- Action sequence from the root to this node, in order. -/
def acts : Node σ α → List α
  | .root _ => []
  | .child _ p a _ _ => p.acts ++ [a]

/-- The root state of the parent chain. -/
def rootState : Node σ α → σ
  | .root s => s
  | .child _ p _ _ _ => p.rootState

/-- The `solution_path()` method: node chain from the root to this node. -/
def solutionPath : Node σ α → List (Node σ α)
  | .root s => [.root s]
  | .child s p a c d => p.solutionPath ++ [.child s p a c d]

/-- The `expand` method: one child per action of the current state. -/
def expand (p : Problem σ α κ) (n : Node σ α) : List (Node σ α) :=
  (p.actions n.state).map (fun a =>
    let next := p.result n.state a
    Node.child next n a (n.path_cost + p.step_cost n.state a next) (n.depth + 1))

end Node

/-- The `SearchResult` outcome record (src/core/results.py); the wall-clock
`runtime` field is omitted. -/
structure SearchResult (σ α : Type) where
  solution_node : Option (Node σ α)
  success : Bool
  nodes_expanded : ℕ
  iterations : ℕ := 0
deriving DecidableEq

namespace SearchResult

/-- Derived `solution_path`: `[]` when there is no solution node. -/
def solution_path (r : SearchResult σ α) : List (Node σ α) :=
  match r.solution_node with
  | none => []
  | some n => n.solutionPath

/-- Derived `solution_cost`: `+inf` when there is no solution node. -/
def solution_cost (r : SearchResult σ α) : WithTop ℚ :=
  match r.solution_node with
  | none => ⊤
  | some n => (n.path_cost : WithTop ℚ)

end SearchResult

/-- Fold a list of actions from a state through `result` (no legality check). -/
def foldResult (p : Problem σ α κ) (s : σ) (as : List α) : σ :=
  as.foldl p.result s

/-- Run a list of actions from a state, checking each action is currently
legal (yielded by `actions`); `none` when some action is illegal. -/
def legalRun [DecidableEq α] (p : Problem σ α κ) : σ → List α → Option σ
  | s, [] => some s
  | s, a :: as => if a ∈ p.actions s then legalRun p (p.result s a) as else none

theorem legalRun_eq_foldResult [DecidableEq α] (p : Problem σ α κ) :
    ∀ as s t, legalRun p s as = some t → foldResult p s as = t := by
  intro as
  induction as with
  | nil => intro s t h; simpa [legalRun, foldResult] using h
  | cons a as ih =>
    intro s t h
    simp only [legalRun] at h
    split at h
    · simpa [foldResult, List.foldl_cons] using ih (p.result s a) t h
    · exact absurd h (by simp)

theorem legalRun_append [DecidableEq α] (p : Problem σ α κ) :
    ∀ xs ys s, legalRun p s (xs ++ ys) =
      (legalRun p s xs).bind (fun u => legalRun p u ys) := by
  intro xs
  induction xs with
  | nil => intro ys s; simp [legalRun]
  | cons a xs ih =>
    intro ys s
    simp only [List.cons_append, legalRun]
    split
    · exact ih ys (p.result s a)
    · simp

/-- Frontier entry of the priority queue: `(f-value, insertion counter, node)`,
mirroring the `(f, counter, node)` tuples pushed onto the heap. -/
structure Entry (σ α : Type) where
  f : ℚ
  c : ℕ
  node : Node σ α
deriving DecidableEq

/-- Pop the minimum entry in `(f, counter)` lexicographic order — the order
`heapq` realizes on `(f, counter, node)` tuples (counters are pairwise
distinct, so the node component is never compared). -/
def popMin : List (Entry σ α) → Option (Entry σ α × List (Entry σ α))
  | [] => none
  | e :: es =>
    match popMin es with
    | none => some (e, [])
    | some (m, r) =>
      if e.f < m.f ∨ (e.f = m.f ∧ e.c ≤ m.c) then some (e, es) else some (m, e :: r)

theorem popMin_eq_none {l : List (Entry σ α)} : popMin l = none ↔ l = [] := by
  cases l with
  | nil => simp [popMin]
  | cons e es =>
    cases h : popMin (σ := σ) (α := α) es <;> simp only [popMin, h] <;>
      constructor <;> intro hc <;> first
        | exact absurd hc (by simp)
        | (split at hc <;> exact absurd hc (by simp))

theorem popMin_cons_none {e : Entry σ α} {es : List (Entry σ α)}
    (hm : popMin es = none) : popMin (e :: es) = some (e, []) := by
  simp [popMin, hm]

theorem popMin_cons_some {e m2 : Entry σ α} {es r2 : List (Entry σ α)}
    (hm : popMin es = some (m2, r2)) :
    popMin (e :: es) = if e.f < m2.f ∨ (e.f = m2.f ∧ e.c ≤ m2.c)
      then some (e, es) else some (m2, e :: r2) := by
  simp [popMin, hm]

theorem popMin_perm {l : List (Entry σ α)} {m : Entry σ α}
    {r : List (Entry σ α)} (h : popMin l = some (m, r)) : l.Perm (m :: r) := by
  induction l generalizing m r with
  | nil => exact absurd h (by simp [popMin])
  | cons e es ih =>
    cases hm : popMin (σ := σ) (α := α) es with
    | none =>
      rw [popMin_cons_none hm] at h
      obtain rfl : es = [] := popMin_eq_none.mp hm
      simp only [Option.some.injEq, Prod.mk.injEq] at h
      obtain ⟨rfl, rfl⟩ := h
      exact List.Perm.refl _
    | some mr =>
      obtain ⟨m2, r2⟩ := mr
      rw [popMin_cons_some hm] at h
      have hperm := ih hm
      split at h <;> simp only [Option.some.injEq, Prod.mk.injEq] at h <;>
        obtain ⟨rfl, rfl⟩ := h
      · exact List.Perm.refl _
      · exact (hperm.cons e).trans (List.Perm.swap m2 e r2)

theorem popMin_min {l : List (Entry σ α)} {m : Entry σ α}
    {r : List (Entry σ α)} (h : popMin l = some (m, r)) :
    ∀ x ∈ l, m.f ≤ x.f := by
  induction l generalizing m r with
  | nil => exact absurd h (by simp [popMin])
  | cons e es ih =>
    cases hm : popMin (σ := σ) (α := α) es with
    | none =>
      rw [popMin_cons_none hm] at h
      obtain rfl : es = [] := popMin_eq_none.mp hm
      simp only [Option.some.injEq, Prod.mk.injEq] at h
      obtain ⟨rfl, rfl⟩ := h
      intro x hx
      rw [List.mem_singleton] at hx
      subst hx; exact le_refl _
    | some mr =>
      obtain ⟨m2, r2⟩ := mr
      rw [popMin_cons_some hm] at h
      have hmin := ih hm
      split at h <;> rename_i hcond <;>
        simp only [Option.some.injEq, Prod.mk.injEq] at h <;>
        obtain ⟨rfl, rfl⟩ := h
      · intro x hx
        have hef : e.f ≤ m2.f := by
          rcases hcond with hlt | ⟨heq, _⟩
          · exact le_of_lt hlt
          · exact le_of_eq heq
        rcases List.mem_cons.mp hx with rfl | hxes
        · exact le_refl _
        · exact le_trans hef (hmin x hxes)
      · intro x hx
        push_neg at hcond
        rcases List.mem_cons.mp hx with rfl | hxes
        · exact hcond.1
        · exact hmin x hxes

theorem popMin_mem {l : List (Entry σ α)} {m : Entry σ α}
    {r : List (Entry σ α)} (h : popMin l = some (m, r)) : m ∈ l :=
  (popMin_perm h).symm.subset (List.mem_cons_self m r)

/-- The A* priority `f(n) = g(n) + w * h(n)`. -/
def fval (h : σ → ℚ) (w : ℚ) (n : Node σ α) : ℚ :=
  n.path_cost + w * h n.state

/-- Mutable loop state of `AStarSearch.search`: the frontier list, the
insertion counter, the `best_g` map (a partial map on keys) and the
`nodes_expanded` counter. -/
structure AState (σ α κ : Type) where
  frontier : List (Entry σ α)
  counter : ℕ
  best : κ → Option ℚ
  expanded : ℕ

/-- The test `state_key in best_g and best_g[state_key] <= cost`. -/
def bestBeats (b : Option ℚ) (c : ℚ) : Bool :=
  match b with
  | some v => decide (v ≤ c)
  | none => false

/-- Point update of the `best_g` map: `best_g[k] = v`. -/
def updBest [DecidableEq κ] (best : κ → Option ℚ) (k : κ) (v : ℚ) :
    κ → Option ℚ :=
  fun k2 => if k2 = k then some v else best k2

/-- The test `sk not in best_g or child.path_cost < best_g[sk]`. -/
def pushCond (b : Option ℚ) (c : ℚ) : Bool :=
  match b with
  | some v => decide (c < v)
  | none => true

theorem pushCond_eq_not_bestBeats (b : Option ℚ) (c : ℚ) :
    pushCond b c = !(bestBeats b c) := by
  cases b with
  | none => rfl
  | some v =>
    simp only [pushCond, bestBeats]
    by_cases hv : c < v
    · simp [hv, not_le.mpr hv]
    · simp [hv, not_lt.mp hv]

/-- The child-push loop of `AStarSearch.search`: push each child whose key has
no recorded cost or whose cost strictly improves the recorded one, bumping the
insertion counter per pushed child. -/
def pushChildren [DecidableEq κ] (p : Problem σ α κ) (h : σ → ℚ) (w : ℚ)
    (best : κ → Option ℚ) (children : List (Node σ α))
    (fr : List (Entry σ α)) (counter : ℕ) : List (Entry σ α) × ℕ :=
  children.foldl (fun acc ch =>
    if pushCond (best (p.state_key ch.state)) ch.path_cost then
      (acc.1 ++ [⟨fval h w ch, acc.2 + 1, ch⟩], acc.2 + 1)
    else acc)
    (fr, counter)

/-- The main loop of `AStarSearch.search` (fuel-indexed). -/
def astarLoop [DecidableEq κ] (p : Problem σ α κ) (h : σ → ℚ) (w : ℚ) :
    ℕ → AState σ α κ → SearchResult σ α
  | 0, st => ⟨none, false, st.expanded, 0⟩
  | fuel + 1, st =>
    match popMin st.frontier with
    | none => ⟨none, false, st.expanded, 0⟩
    | some (e, rest) =>
      if p.is_goal e.node.state then ⟨some e.node, true, st.expanded, 0⟩
      else
        let key := p.state_key e.node.state
        if bestBeats (st.best key) e.node.path_cost then
          astarLoop p h w fuel { st with frontier := rest }
        else
          let best2 := updBest st.best key e.node.path_cost
          let pc := pushChildren p h w best2 (e.node.expand p) rest st.counter
          astarLoop p h w fuel ⟨pc.1, pc.2, best2, st.expanded + 1⟩

/-- `AStarSearch.search`: start from a root node on the initial state with an
empty `best_g` map. -/
def astarSearch [DecidableEq κ] (p : Problem σ α κ) (h : σ → ℚ) (w : ℚ)
    (fuel : ℕ) : SearchResult σ α :=
  let start : Node σ α := Node.root p.initial
  astarLoop p h w fuel ⟨[⟨fval h w start, 0, start⟩], 0, fun _ => none, 0⟩

/-- Point update of the visited set: `visited.add(k)`. -/
def updVis [DecidableEq κ] (vis : κ → Bool) (k : κ) : κ → Bool :=
  fun k2 => if k2 = k then true else vis k2

/-- The child-push loop of `GreedyBestFirstSearch.search`: push each child
whose key is not yet visited (priority is `h` alone). -/
def pushGreedy [DecidableEq κ] (p : Problem σ α κ) (h : σ → ℚ)
    (vis : κ → Bool) (children : List (Node σ α))
    (fr : List (Entry σ α)) (counter : ℕ) : List (Entry σ α) × ℕ :=
  children.foldl (fun acc ch =>
    if vis (p.state_key ch.state) then acc
    else (acc.1 ++ [⟨h ch.state, acc.2 + 1, ch⟩], acc.2 + 1))
    (fr, counter)

/-- The main loop of `GreedyBestFirstSearch.search` (fuel-indexed). Besides
the outcome it returns the list of state keys expanded, in order — ghost
instrumentation used only to state the no-re-expansion property; the
`nodes_expanded` counter of the result counts exactly these expansions. -/
def greedyLoop [DecidableEq κ] (p : Problem σ α κ) (h : σ → ℚ) :
    ℕ → List (Entry σ α) → (κ → Bool) → ℕ → ℕ → SearchResult σ α × List κ
  | 0, _, _, _, exp => (⟨none, false, exp, 0⟩, [])
  | fuel + 1, fr, vis, counter, exp =>
    match popMin fr with
    | none => (⟨none, false, exp, 0⟩, [])
    | some (e, rest) =>
      let key := p.state_key e.node.state
      if vis key then greedyLoop p h fuel rest vis counter exp
      else
        let vis2 := updVis vis key
        if p.is_goal e.node.state then (⟨some e.node, true, exp, 0⟩, [])
        else
          let pc := pushGreedy p h vis2 (e.node.expand p) rest counter
          let res := greedyLoop p h fuel pc.1 vis2 pc.2 (exp + 1)
          (res.1, key :: res.2)

/-- `GreedyBestFirstSearch.search`. -/
def greedySearch [DecidableEq κ] (p : Problem σ α κ) (h : σ → ℚ)
    (fuel : ℕ) : SearchResult σ α :=
  let start : Node σ α := Node.root p.initial
  (greedyLoop p h fuel [⟨h start.state, 0, start⟩] (fun _ => false) 0 0).1

/-- Python's `min(xs, key=f)` scanned left to right seeded with the first
element: the first element attaining the minimal key. -/
def pyMinBy (f : X → ℚ) : X → List X → X
  | best, [] => best
  | best, x :: xs => pyMinBy f (if f x < f best then x else best) xs

/-- The result built after the local-search loops (hill climbing, simulated
annealing): success iff the final current state is the goal. -/
def localResult (p : Problem σ α κ) (cur : Node σ α) (exp iters : ℕ) :
    SearchResult σ α :=
  let s := p.is_goal cur.state
  ⟨if s then some cur else none, s, exp, iters⟩

/-- The loop of `HillClimbingSearch.search` (fuel = `max_steps`). Besides the
outcome it returns the final current state and the list of per-pass neighbor
counts — ghost instrumentation used to state that `nodes_expanded` counts
every generated neighbor. -/
def hcLoop (p : Problem σ α κ) (h : σ → ℚ) :
    ℕ → Node σ α → ℚ → ℕ → ℕ → SearchResult σ α × σ × List ℕ
  | 0, cur, _, exp, iters => (localResult p cur exp iters, cur.state, [])
  | fuel + 1, cur, curh, exp, iters =>
    if p.is_goal cur.state then (⟨some cur, true, exp, iters + 1⟩, cur.state, [])
    else
      match cur.expand p with
      | [] => (localResult p cur exp (iters + 1), cur.state, [])
      | n0 :: ns =>
        let cnt := (n0 :: ns).length
        let best := pyMinBy (fun n => h n.state) n0 ns
        let bh := h best.state
        if curh ≤ bh then
          (localResult p cur (exp + cnt) (iters + 1), cur.state, [cnt])
        else
          let rec2 := hcLoop p h fuel best bh (exp + cnt) (iters + 1)
          (rec2.1, rec2.2.1, cnt :: rec2.2.2)

/-- `HillClimbingSearch.search` (the neighbor `Node` construction in the
source builds exactly the same children as `Node.expand`). -/
def hcSearch (p : Problem σ α κ) (h : σ → ℚ) (max_steps : ℕ) :
    SearchResult σ α :=
  (hcLoop p h max_steps (Node.root p.initial) (h p.initial) 0 0).1

/-- An explicit pseudo-random generator interface with seed type `ρ`:
`nextNat` models an integer draw (`random.choice` / `random.randint` reduce it
mod the range size), `nextQ` models `random.random()`. -/
structure RandGen (ρ : Type) where
  nextNat : ρ → ℕ × ρ
  nextQ : ρ → ℚ × ρ

/-- The `1e-8` temperature floor of simulated annealing. -/
def tempFloor : ℚ := 1 / 100000000

/-- The loop of `SimulatedAnnealingSearch.search` (fuel = `max_steps`); `mexp`
models `math.exp`. -/
def saLoop (gen : RandGen ρ) (p : Problem σ α κ) (h : σ → ℚ)
    (alpha : ℚ) (mexp : ℚ → ℚ) :
    ℕ → Node σ α → ℚ → ℚ → ρ → ℕ → ℕ → SearchResult σ α
  | 0, cur, _, _, _, exp, iters => localResult p cur exp iters
  | fuel + 1, cur, curh, T, seed, exp, iters =>
    if p.is_goal cur.state then ⟨some cur, true, exp, iters + 1⟩
    else if T ≤ tempFloor then localResult p cur exp (iters + 1)
    else
      match p.actions cur.state with
      | [] => localResult p cur exp (iters + 1)
      | a0 :: as =>
        let (n, s2) := gen.nextNat seed
        let action := (a0 :: as).getD (n % (a0 :: as).length) a0
        let next := p.result cur.state action
        let nexth := h next
        let delta := nexth - curh
        let moved : Node σ α := Node.child next cur action
          (cur.path_cost + p.step_cost cur.state action next) (cur.depth + 1)
        if delta < 0 then
          saLoop gen p h alpha mexp fuel moved nexth (T * alpha) s2
            (exp + 1) (iters + 1)
        else
          let (r, s3) := gen.nextQ s2
          if r < mexp (-delta / T) then
            saLoop gen p h alpha mexp fuel moved nexth (T * alpha) s3
              (exp + 1) (iters + 1)
          else
            saLoop gen p h alpha mexp fuel cur curh (T * alpha) s3
              (exp + 1) (iters + 1)

/-- `SimulatedAnnealingSearch.search`. -/
def saSearch (gen : RandGen ρ) (p : Problem σ α κ) (h : σ → ℚ)
    (T0 alpha : ℚ) (mexp : ℚ → ℚ) (max_steps : ℕ) (seed : ρ) :
    SearchResult σ α :=
  saLoop gen p h alpha mexp max_steps (Node.root p.initial) (h p.initial)
    T0 seed 0 0

/-- Test whether taking an action would undo the parent's move:
`node.parent and node.parent.state == next_state`. -/
def undoesParent [DecidableEq σ] (n : Node σ α) (next : σ) : Bool :=
  match n.parentOpt with
  | some par => decide (par.state = next)
  | none => false

/-- The action loop inside `search_recursive` of `IDAStarSearch`: `rec2` is
the recursive call at the next depth (already closed over the current bound).
Returns `(min candidate or -1 sentinel, solution, nodes_expanded)`. -/
def idaActs [DecidableEq σ] (p : Problem σ α κ)
    (rec2 : Node σ α → ℚ → ℕ → WithTop ℚ × Option (Node σ α) × ℕ) :
    Node σ α → ℚ → List α → WithTop ℚ → ℕ → WithTop ℚ × Option (Node σ α) × ℕ
  | _, _, [], minv, exp => (minv, none, exp)
  | node, g, a :: as, minv, exp =>
    let next := p.result node.state a
    if undoesParent node next then idaActs p rec2 node g as minv exp
    else
      let sc := p.step_cost node.state a next
      let child := Node.child next node a (g + sc) (node.depth + 1)
      let r := rec2 child (g + sc) exp
      if r.1 = ((-1 : ℚ) : WithTop ℚ) then (((-1 : ℚ) : WithTop ℚ), r.2.1, r.2.2)
      else idaActs p rec2 node g as (min minv r.1) r.2.2

/-- `search_recursive` (fuel-indexed; the Python recursion is unbounded and
runs until the f-bound prunes it). -/
def idaRec [DecidableEq σ] (p : Problem σ α κ) (h : σ → ℚ) (bound : ℚ) :
    ℕ → Node σ α → ℚ → ℕ → WithTop ℚ × Option (Node σ α) × ℕ
  | 0, _, _, exp => (⊤, none, exp)
  | rf + 1, node, g, exp =>
    let f := g + h node.state
    if bound < f then ((f : WithTop ℚ), none, exp)
    else if p.is_goal node.state then (((-1 : ℚ) : WithTop ℚ), some node, exp)
    else
      idaActs p (fun child g2 e2 => idaRec p h bound rf child g2 e2)
        node g (p.actions node.state) ⊤ (exp + 1)

/-- The outer deepening loop of `IDAStarSearch.search`: success on the -1
sentinel, failure on an infinite candidate, otherwise deepen the bound. -/
def idaOuter [DecidableEq σ] (p : Problem σ α κ) (h : σ → ℚ) (recFuel : ℕ) :
    ℕ → ℚ → ℕ → SearchResult σ α
  | 0, _, exp => ⟨none, false, exp, 0⟩
  | fuel + 1, bound, exp =>
    let r := idaRec p h bound recFuel (Node.root p.initial) 0 exp
    match r.1 with
    | none => ⟨none, false, r.2.2, 0⟩
    | some t =>
      if t = -1 then ⟨r.2.1, true, r.2.2, 0⟩
      else idaOuter p h recFuel fuel t r.2.2

/-- `IDAStarSearch.search`: the first bound is `h(initial)`. -/
def idaSearch [DecidableEq σ] (p : Problem σ α κ) (h : σ → ℚ)
    (recFuel outerFuel : ℕ) : SearchResult σ α :=
  idaOuter p h recFuel outerFuel (h p.initial) 0

/-- The action alphabet hard-coded in `GeneticAlgorithmSearch.search`. -/
def allActions : List String := ["UP", "DOWN", "LEFT", "RIGHT"]

/-- Chromosome replay (`evaluate`): apply each action that is currently legal
(illegal ones are silently skipped); stop with infinite fitness when the goal
is reached; otherwise fitness is `1 / (h(final) + 1)`. Returns
`(fitness, final node)`. -/
def gaEval (p : Problem σ String κ) (h : σ → ℚ) :
    List String → Node σ String → WithTop ℚ × Node σ String
  | [], cur => (((1 / (h cur.state + 1) : ℚ) : WithTop ℚ), cur)
  | a :: rest, cur =>
    if a ∈ p.actions cur.state then
      let next := p.result cur.state a
      let moved : Node σ String :=
        Node.child next cur a (cur.path_cost + 1) (cur.depth + 1)
      if p.is_goal next then (⊤, moved)
      else gaEval p h rest moved
    else gaEval p h rest cur

/-- `random_individual`: `chromosome_length` draws from the action alphabet. -/
def gaRandomIndividual (gen : RandGen ρ) : ℕ → ρ → List String × ρ
  | 0, seed => ([], seed)
  | n + 1, seed =>
    let (d, s2) := gen.nextNat seed
    let a := allActions.getD (d % allActions.length) "UP"
    let (rest, s3) := gaRandomIndividual gen n s2
    (a :: rest, s3)

/-- The initial population: `population_size` random individuals in order. -/
def gaInitPop (gen : RandGen ρ) (chromLen : ℕ) : ℕ → ρ → List (List String) × ρ
  | 0, seed => ([], seed)
  | n + 1, seed =>
    let (ind, s2) := gaRandomIndividual gen chromLen seed
    let (rest, s3) := gaInitPop gen chromLen n s2
    (ind :: rest, s3)

/-- Remove the element at index `draw % length` from a list, returning it and
the remainder (one sampling step of `random.sample`). -/
def pickAt (l : List X) (n : ℕ) (dflt : X) : X × List X :=
  let i := n % l.length
  (l.getD i dflt, l.eraseIdx i)

/-- Model of `random.sample(xs, 3)`: three draws without replacement. -/
def sample3 (gen : RandGen ρ) (seed : ρ) (l : List X) (dflt : X) :
    List X × ρ :=
  let (n1, s1) := gen.nextNat seed
  let (x1, l1) := pickAt l n1 dflt
  let (n2, s2) := gen.nextNat s1
  let (x2, l2) := pickAt l1 n2 dflt
  let (n3, s3) := gen.nextNat s2
  let (x3, _) := pickAt l2 n3 dflt
  ([x1, x2, x3], s3)

/-- Python's `max(xs, key=f)` scanned left to right seeded with the first
element: the first element attaining the maximal key. -/
def pyMaxBy (f : X → WithTop ℚ) : X → List X → X
  | best, [] => best
  | best, x :: xs => pyMaxBy f (if f best < f x then x else best) xs

/-- `_select`: tournament among 3 sampled individuals, keep the fittest. -/
def gaSelect (gen : RandGen ρ) (seed : ρ)
    (scored : List (WithTop ℚ × List String)) : List String × ρ :=
  let (cands, s2) := sample3 gen seed scored (0, [])
  match cands with
  | [] => ([], s2)
  | c0 :: cs => ((pyMaxBy Prod.fst c0 cs).2, s2)

/-- `_crossover`: single-point crossover; `random.randint(1, len-1)` is
modelled as `1 + n % (len - 1)` (the Python call raises for chromosomes
shorter than 2, a case no caller in the repository exercises). -/
def gaCrossover (gen : RandGen ρ) (seed : ρ) (p1 p2 : List String) :
    List String × ρ :=
  let (n, s2) := gen.nextNat seed
  let point := 1 + n % (p1.length - 1)
  (p1.take point ++ p2.drop point, s2)

/-- `_mutate`: with probability `mutation_rate`, replace one random gene by a
random action. -/
def gaMutate (gen : RandGen ρ) (seed : ρ) (rate : ℚ) (ind : List String) :
    List String × ρ :=
  let (r, s2) := gen.nextQ seed
  if r < rate then
    let (n1, s3) := gen.nextNat s2
    let idx := n1 % ind.length
    let (n2, s4) := gen.nextNat s3
    let a := allActions.getD (n2 % allActions.length) "UP"
    (ind.set idx a, s4)
  else (ind, s2)

/-- Stable insert for descending order by key (later elements go after equal
earlier ones), the behavior of Python's stable `sort(key=.., reverse=True)`. -/
def insertDesc (f : X → WithTop ℚ) (x : X) : List X → List X
  | [] => [x]
  | y :: ys => if f x ≤ f y then y :: insertDesc f x ys else x :: y :: ys

/-- Python's stable `list.sort(key=f, reverse=True)`. -/
def pySortDesc (f : X → WithTop ℚ) (l : List X) : List X :=
  l.foldl (fun acc x => insertDesc f x acc) []

/-- Evaluate one generation's population in order, adding
`chromosome_length` to `nodes_expanded` per individual; stop early with a
success result when an individual reaches the goal (infinite fitness),
reporting the generation index as `iterations`. -/
def gaEvalPop (p : Problem σ String κ) (h : σ → ℚ) (chromLen genIdx : ℕ) :
    List (List String) → ℕ → List (WithTop ℚ × List String) →
    Sum (SearchResult σ String) (List (WithTop ℚ × List String) × ℕ)
  | [], exp, scored => Sum.inr (scored, exp)
  | ind :: rest, exp, scored =>
    let fn := gaEval p h ind (Node.root p.initial)
    let exp2 := exp + chromLen
    if fn.1 = ⊤ then Sum.inl ⟨some fn.2, true, exp2, genIdx⟩
    else gaEvalPop p h chromLen genIdx rest exp2 (scored ++ [(fn.1, ind)])

/-- The reproduction loop: fill the new population up to `population_size`
via tournament selection, single-point crossover and point mutation. -/
def gaFill (gen : RandGen ρ) (rate : ℚ)
    (scored : List (WithTop ℚ × List String)) :
    ℕ → List (List String) → ρ → List (List String) × ρ
  | 0, acc, seed => (acc, seed)
  | k + 1, acc, seed =>
    let (q1, s1) := gaSelect gen seed scored
    let (q2, s2) := gaSelect gen s1 scored
    let (c1, s3) := gaCrossover gen s2 q1 q2
    let (c2, s4) := gaMutate gen s3 rate c1
    gaFill gen rate scored k (acc ++ [c2]) s4

/-- The generation loop of `GeneticAlgorithmSearch.search`. After the last
generation, the best individual of the last evaluated generation is replayed
once more and success is reported only if its final state is the goal
(Python raises IndexError when no generation was ever evaluated — population
size 0 or zero generations —; that unreachable branch is modelled as a
failure result). -/
def gaGens (gen : RandGen ρ) (p : Problem σ String κ) (h : σ → ℚ)
    (popSize chromLen maxGens : ℕ) (rate : ℚ) :
    ℕ → ℕ → List (List String) → List (WithTop ℚ × List String) → ρ → ℕ →
    SearchResult σ String
  | 0, _, _, scored, _, exp =>
    match scored with
    | [] => ⟨none, false, exp, 0⟩
    | best :: _ =>
      let fn := gaEval p h best.2 (Node.root p.initial)
      ⟨if p.is_goal fn.2.state then some fn.2 else none,
        p.is_goal fn.2.state, exp, maxGens⟩
  | rem + 1, genIdx, pop, _, seed, exp =>
    match gaEvalPop p h chromLen genIdx pop exp [] with
    | Sum.inl res => res
    | Sum.inr (scored, exp2) =>
      let sorted := pySortDesc Prod.fst scored
      match sorted with
      | [] => gaGens gen p h popSize chromLen maxGens rate rem (genIdx + 1)
          [] sorted seed exp2
      | b :: _ =>
        let (filled, s2) := gaFill gen rate sorted (popSize - 1) [b.2] seed
        gaGens gen p h popSize chromLen maxGens rate rem (genIdx + 1)
          filled sorted s2 exp2

/-- `GeneticAlgorithmSearch.search`. -/
def gaSearch (gen : RandGen ρ) (p : Problem σ String κ) (h : σ → ℚ)
    (popSize : ℕ) (rate : ℚ) (maxGens chromLen : ℕ) (seed : ρ) :
    SearchResult σ String :=
  let ip := gaInitPop gen chromLen popSize seed
  gaGens gen p h popSize chromLen maxGens rate maxGens 0 ip.1 [] ip.2 0

/-- Python list indexing for a possibly negative index: valid non-negative
indices and wrap-around negative indices succeed, anything else raises
IndexError (`none`). -/
def pyIndex (len : ℕ) (i : ℤ) : Option ℕ :=
  if 0 ≤ i ∧ i < (len : ℤ) then some i.toNat
  else if -(len : ℤ) ≤ i ∧ i < 0 then some ((len : ℤ) + i).toNat
  else none

namespace SlidingPuzzle

/-- `SlidingPuzzleProblem.actions`: the directions that keep the blank on the
board, in the fixed UP, DOWN, LEFT, RIGHT order. States are flat tile lists
with `0` as the blank (`state.index(0)` locates it). -/
def actions (size : ℕ) (s : List ℕ) : List String :=
  let idx := s.indexOf 0
  let row := idx / size
  let col := idx % size
  (if 0 < row then ["UP"] else []) ++
  (if row < size - 1 then ["DOWN"] else []) ++
  (if 0 < col then ["LEFT"] else []) ++
  (if col < size - 1 then ["RIGHT"] else [])

/-- `SlidingPuzzleProblem.result`, with Python's error behavior explicit:
an unknown action name raises ValueError; the swap indexes the target cell
with Python list-indexing semantics, so an off-board target either wraps
around (negative index) or raises IndexError. Assumes the blank is present
(`state.index(0)` would raise otherwise). -/
def result (size : ℕ) (s : List ℕ) (a : String) : Except String (List ℕ) :=
  let idx := s.indexOf 0
  let row := idx / size
  let col := idx % size
  let nrc : Option (ℤ × ℤ) :=
    if a = "UP" then some ((row : ℤ) - 1, (col : ℤ))
    else if a = "DOWN" then some ((row : ℤ) + 1, (col : ℤ))
    else if a = "LEFT" then some ((row : ℤ), (col : ℤ) - 1)
    else if a = "RIGHT" then some ((row : ℤ), (col : ℤ) + 1)
    else none
  match nrc with
  | none => Except.error "ValueError: Unknown action"
  | some nc =>
    let iswap : ℤ := nc.1 * size + nc.2
    match pyIndex s.length iswap with
    | none => Except.error "IndexError: list index out of range"
    | some j =>
      let vi := s.getD idx 0
      let vj := s.getD j 0
      Except.ok ((s.set idx vj).set j vi)

/-- The totalized transition used to instantiate the abstract `Problem`
contract (on actions yielded by `actions` the checked `result` never
errors). -/
def resultT (size : ℕ) (s : List ℕ) (a : String) : List ℕ :=
  match result size s a with
  | Except.ok t => t
  | Except.error _ => s

/-- The sliding puzzle as a `Problem`: state key is the state itself (the
Python default `state_key`), step costs are the inherited default 1.0. -/
def problem (size : ℕ) (ini goal : List ℕ) :
    Problem (List ℕ) String (List ℕ) where
  initial := ini
  actions := actions size
  result := resultT size
  step_cost := fun _ _ _ => 1
  is_goal := fun s => decide (s = goal)
  state_key := id

/-- The `tile_to_pos` table built by iterating `enumerate(goal_state)` into a
dict (a later duplicate tile overwrites an earlier one); tiles absent from
the goal map to `(0, 0)` (Python would raise KeyError there). -/
def tileToPos (goal : List ℕ) (size : ℕ) : ℕ → ℕ × ℕ :=
  goal.enum.foldl
    (fun f pr => fun t => if t = pr.2 then (pr.1 / size, pr.1 % size) else f t)
    (fun _ => (0, 0))

/-- The natural-number total of `manhattan_distance_heuristic`. -/
def manhattanTotal (goal : List ℕ) (size : ℕ) (s : List ℕ) : ℕ :=
  s.enum.foldl (fun acc pr =>
    if pr.2 = 0 then acc
    else
      let gp := tileToPos goal size pr.2
      acc + ((pr.1 / size : ℤ) - gp.1).natAbs + ((pr.1 % size : ℤ) - gp.2).natAbs)
    0

/-- `manhattan_distance_heuristic`: sum over non-blank tiles of the grid
distance to the tile's goal position, returned as a float. -/
def manhattanH (goal : List ℕ) (size : ℕ) (s : List ℕ) : ℚ :=
  (manhattanTotal goal size s : ℚ)

/-- `misplaced_tiles_heuristic`: number of non-blank tiles off their goal
cell. -/
def misplacedH (goal : List ℕ) (s : List ℕ) : ℚ :=
  ((s.enum.filter (fun pr => pr.2 ≠ 0 ∧ pr.2 ≠ goal.getD pr.1 0)).length : ℚ)

/-- Conflicting pairs of the double loop over a collected tile list
(`(tile, current, goal)` triples): pairs `i < j` whose goal coordinates are
inverted (`t1_goal > t2_goal`). -/
def conflictCount : List (ℕ × ℕ × ℕ) → ℕ
  | [] => 0
  | x :: xs => (xs.filter (fun y => y.2.2 < x.2.2)).length + conflictCount xs

/-- The `row_tiles` collection for row `r`: non-blank tiles of row `r` whose
goal row is also `r`, as `(tile, current column, goal column)` triples. -/
def rowTiles (goal : List ℕ) (size : ℕ) (s : List ℕ) (r : ℕ) :
    List (ℕ × ℕ × ℕ) :=
  (List.range size).filterMap (fun c =>
    let tile := s.getD (r * size + c) 0
    if tile ≠ 0 ∧ (tileToPos goal size tile).1 = r
    then some (tile, c, (tileToPos goal size tile).2) else none)

/-- The `col_tiles` collection for column `c`: non-blank tiles of column `c`
whose goal column is also `c`, as `(tile, current row, goal row)` triples. -/
def colTiles (goal : List ℕ) (size : ℕ) (s : List ℕ) (c : ℕ) :
    List (ℕ × ℕ × ℕ) :=
  (List.range size).filterMap (fun r =>
    let tile := s.getD (r * size + c) 0
    if tile ≠ 0 ∧ (tileToPos goal size tile).2 = c
    then some (tile, r, (tileToPos goal size tile).1) else none)

/-- Total number of linear conflicts over all rows and columns. -/
def conflicts (goal : List ℕ) (size : ℕ) (s : List ℕ) : ℕ :=
  ((List.range size).map (fun r => conflictCount (rowTiles goal size s r))).sum +
  ((List.range size).map (fun c => conflictCount (colTiles goal size s c))).sum

/-- `linear_conflict_heuristic`: Manhattan distance plus 2 per conflicting
pair in rows and columns. -/
def linearConflictH (goal : List ℕ) (size : ℕ) (s : List ℕ) : ℚ :=
  manhattanH goal size s + ((2 * conflicts goal size s : ℕ) : ℚ)

end SlidingPuzzle

/-! ### Heuristic domination (C8) -/

/-- C8: for every board size `n ≥ 2`, every goal configuration and every
state (a flat list of `n*n` tiles containing one blank),
`linear_conflict_heuristic` dominates `manhattan_distance_heuristic`, which
is non-negative. -/
theorem c8_heuristic_domination (n : ℕ) (goal s : List ℕ) (hn : 2 ≤ n)
    (hlen : s.length = n * n)
    (hblank : (s.filter (fun t => t = 0)).length = 1) :
    SlidingPuzzle.manhattanH goal n s ≤ SlidingPuzzle.linearConflictH goal n s ∧
    0 ≤ SlidingPuzzle.manhattanH goal n s := by
  constructor
  · exact le_add_of_nonneg_right (Nat.cast_nonneg _)
  · exact Nat.cast_nonneg _

/-- Witness for C8 at the 2×2 board, goal `(1,2,3,0)`, state `(0,1,2,3)`. -/
theorem c8_heuristic_domination_witness :
    (2 ≤ 2 ∧ ([0, 1, 2, 3] : List ℕ).length = 2 * 2 ∧
      (([0, 1, 2, 3] : List ℕ).filter (fun t => t = 0)).length = 1) ∧
    (SlidingPuzzle.manhattanH [1, 2, 3, 0] 2 [0, 1, 2, 3] ≤
        SlidingPuzzle.linearConflictH [1, 2, 3, 0] 2 [0, 1, 2, 3] ∧
      0 ≤ SlidingPuzzle.manhattanH [1, 2, 3, 0] 2 [0, 1, 2, 3]) :=
  ⟨⟨le_refl 2, by decide, by decide⟩,
    c8_heuristic_domination 2 [1, 2, 3, 0] [0, 1, 2, 3] (le_refl 2)
      (by decide) (by decide)⟩

/-! ### Invalid actions in the puzzle domain (C10) -/

/-- C10 counterexample: on the 2×2 board with the blank at the top-left cell,
`LEFT` is not yielded by `actions`, yet `result` silently returns a state —
Python's negative indexing wraps the swap target to the last cell instead of
signalling an invalid-action error. -/
theorem c10_counterexample :
    SlidingPuzzle.result 2 [0, 1, 2, 3] "LEFT" = Except.ok [3, 1, 2, 0] ∧
    "LEFT" ∉ SlidingPuzzle.actions 2 [0, 1, 2, 3] := by
  exact ⟨by rfl, by decide⟩

/-- C10 amended: `result` signals an invalid-action error (ValueError)
exactly for unknown action names; a directional action not yielded by
`actions` is not rejected in general — with the blank in column 0, `LEFT`
silently returns a wrapped-around state. -/
theorem c10_amended :
    (∀ (size : ℕ) (s : List ℕ) (a : String),
      a ∉ ["UP", "DOWN", "LEFT", "RIGHT"] →
      SlidingPuzzle.result size s a =
        Except.error "ValueError: Unknown action") ∧
    (SlidingPuzzle.result 2 [0, 1, 2, 3] "LEFT" = Except.ok [3, 1, 2, 0] ∧
      "LEFT" ∉ SlidingPuzzle.actions 2 [0, 1, 2, 3]) := by
  constructor
  · intro size s a ha
    simp only [List.mem_cons, List.not_mem_nil, or_false, not_or] at ha
    obtain ⟨h1, h2, h3, h4⟩ := ha
    unfold SlidingPuzzle.result
    simp [h1, h2, h3, h4]
  · exact ⟨by rfl, by decide⟩

/-- Witness for C10 (amended): an unknown action name is rejected with a
ValueError on the standard 3×3 board. -/
theorem c10_amended_witness :
    (("SHUFFLE" : String) ∉ ["UP", "DOWN", "LEFT", "RIGHT"]) ∧
    SlidingPuzzle.result 3 [1, 2, 3, 4, 5, 6, 7, 8, 0] "SHUFFLE" =
      Except.error "ValueError: Unknown action" :=
  ⟨by decide, c10_amended.1 3 [1, 2, 3, 4, 5, 6, 7, 8, 0] "SHUFFLE" (by decide)⟩


/-! ### A* step discipline (C3) -/

theorem pushChildren_nil [DecidableEq κ] (p : Problem σ α κ) (h : σ → ℚ)
    (w : ℚ) (best : κ → Option ℚ) (fr : List (Entry σ α)) (counter : ℕ) :
    pushChildren p h w best [] fr counter = (fr, counter) := rfl

theorem pushChildren_cons [DecidableEq κ] (p : Problem σ α κ) (h : σ → ℚ)
    (w : ℚ) (best : κ → Option ℚ) (ch : Node σ α) (rest : List (Node σ α))
    (fr : List (Entry σ α)) (counter : ℕ) :
    pushChildren p h w best (ch :: rest) fr counter =
      if pushCond (best (p.state_key ch.state)) ch.path_cost then
        pushChildren p h w best rest
          (fr ++ [⟨fval h w ch, counter + 1, ch⟩]) (counter + 1)
      else pushChildren p h w best rest fr counter := by
  simp only [pushChildren, List.foldl_cons]
  by_cases hc : pushCond (best (p.state_key ch.state)) ch.path_cost = true
  · rw [if_pos hc, if_pos hc]
  · rw [if_neg hc, if_neg hc]

theorem pushChildren_base [DecidableEq κ] (p : Problem σ α κ) (h : σ → ℚ)
    (w : ℚ) (best : κ → Option ℚ) :
    ∀ (children : List (Node σ α)) (fr : List (Entry σ α)) (counter : ℕ),
      ∀ e ∈ fr, e ∈ (pushChildren p h w best children fr counter).1 := by
  intro children
  induction children with
  | nil => intro fr counter e he; simpa [pushChildren_nil] using he
  | cons ch rest ih =>
    intro fr counter e he
    rw [pushChildren_cons]
    by_cases hc : pushCond (best (p.state_key ch.state)) ch.path_cost = true
    · rw [if_pos hc]
      exact ih (fr ++ [⟨fval h w ch, counter + 1, ch⟩]) (counter + 1) e
        (List.mem_append_left _ he)
    · rw [if_neg hc]
      exact ih fr counter e he

theorem pushChildren_mem [DecidableEq κ] (p : Problem σ α κ) (h : σ → ℚ)
    (w : ℚ) (best : κ → Option ℚ) :
    ∀ (children : List (Node σ α)) (fr : List (Entry σ α)) (counter : ℕ),
      ∀ e ∈ (pushChildren p h w best children fr counter).1,
        e ∈ fr ∨ ∃ ch ∈ children, e.node = ch ∧ e.f = fval h w ch := by
  intro children
  induction children with
  | nil =>
    intro fr counter e he
    exact Or.inl (by simpa [pushChildren_nil] using he)
  | cons ch rest ih =>
    intro fr counter e he
    rw [pushChildren_cons] at he
    by_cases hc : pushCond (best (p.state_key ch.state)) ch.path_cost = true
    · rw [if_pos hc] at he
      rcases ih (fr ++ [⟨fval h w ch, counter + 1, ch⟩]) (counter + 1) e he with
        hin | ⟨c2, hc2, hn, hf⟩
      · rcases List.mem_append.mp hin with hfr | hnew
        · exact Or.inl hfr
        · rw [List.mem_singleton] at hnew
          subst hnew
          exact Or.inr ⟨ch, List.mem_cons_self _ _, rfl, rfl⟩
      · exact Or.inr ⟨c2, List.mem_cons_of_mem _ hc2, hn, hf⟩
    · rw [if_neg hc] at he
      rcases ih fr counter e he with hin | ⟨c2, hc2, hn, hf⟩
      · exact Or.inl hin
      · exact Or.inr ⟨c2, List.mem_cons_of_mem _ hc2, hn, hf⟩

/-- The nodes on the frontier after the child-push loop: the previous frontier
followed by exactly those children whose key has no recorded cost less than or
equal to their own path cost (`bestBeats` false). -/
theorem pushChildren_nodes [DecidableEq κ] (p : Problem σ α κ) (h : σ → ℚ)
    (w : ℚ) (best : κ → Option ℚ) :
    ∀ (children : List (Node σ α)) (fr : List (Entry σ α)) (counter : ℕ),
      (pushChildren p h w best children fr counter).1.map Entry.node =
        fr.map Entry.node ++
        children.filter
          (fun ch => !(bestBeats (best (p.state_key ch.state)) ch.path_cost)) := by
  intro children
  induction children with
  | nil => intro fr counter; simp [pushChildren_nil]
  | cons ch rest ih =>
    intro fr counter
    rw [pushChildren_cons]
    simp only [List.filter_cons, ← pushCond_eq_not_bestBeats]
    by_cases hc : pushCond (best (p.state_key ch.state)) ch.path_cost = true
    · rw [if_pos hc, if_pos hc, ih]
      simp [pushCond_eq_not_bestBeats]
    · rw [if_neg hc, if_neg hc, ih]
      simp [pushCond_eq_not_bestBeats]

theorem astarLoop_goal_eq [DecidableEq κ] (p : Problem σ α κ) (h : σ → ℚ)
    (w : ℚ) (fuel : ℕ) {st : AState σ α κ} {e : Entry σ α}
    {rest : List (Entry σ α)} (hpop : popMin st.frontier = some (e, rest))
    (hg : p.is_goal e.node.state = true) :
    astarLoop p h w (fuel + 1) st = ⟨some e.node, true, st.expanded, 0⟩ := by
  simp only [astarLoop, hpop]
  rw [if_pos hg]

theorem astarLoop_skip_eq [DecidableEq κ] (p : Problem σ α κ) (h : σ → ℚ)
    (w : ℚ) (fuel : ℕ) {st : AState σ α κ} {e : Entry σ α}
    {rest : List (Entry σ α)} (hpop : popMin st.frontier = some (e, rest))
    (hg : p.is_goal e.node.state = false)
    (hb : bestBeats (st.best (p.state_key e.node.state))
      e.node.path_cost = true) :
    astarLoop p h w (fuel + 1) st =
      astarLoop p h w fuel ⟨rest, st.counter, st.best, st.expanded⟩ := by
  simp only [astarLoop, hpop, hg, Bool.false_eq_true, if_false, hb, if_true]

theorem astarLoop_expand_eq [DecidableEq κ] (p : Problem σ α κ) (h : σ → ℚ)
    (w : ℚ) (fuel : ℕ) {st : AState σ α κ} {e : Entry σ α}
    {rest : List (Entry σ α)} (hpop : popMin st.frontier = some (e, rest))
    (hg : p.is_goal e.node.state = false)
    (hb : bestBeats (st.best (p.state_key e.node.state))
      e.node.path_cost = false) :
    astarLoop p h w (fuel + 1) st =
      astarLoop p h w fuel
        ⟨(pushChildren p h w
            (updBest st.best (p.state_key e.node.state) e.node.path_cost)
            (e.node.expand p) rest st.counter).1,
          (pushChildren p h w
            (updBest st.best (p.state_key e.node.state) e.node.path_cost)
            (e.node.expand p) rest st.counter).2,
          updBest st.best (p.state_key e.node.state) e.node.path_cost,
          st.expanded + 1⟩ := by
  simp only [astarLoop, hpop, hg, Bool.false_eq_true, if_false, hb]

/-- C3: one iteration of the A* loop on a popped non-goal node. If the best
map already records a cost `≤` the popped cost for its key, the node is
dropped: no expansion, `nodes_expanded`, `best_g` and the counter unchanged.
Otherwise its cost is recorded, `nodes_expanded` is incremented by one, and
the new frontier extends the remainder by exactly those children whose key
has no recorded cost `≤` their path cost (re-opening exactly on strict
improvement). -/
theorem c3_astar_step [DecidableEq κ] (p : Problem σ α κ) (h : σ → ℚ)
    (w : ℚ) (fuel : ℕ) (st : AState σ α κ) (e : Entry σ α)
    (rest : List (Entry σ α)) (hpop : popMin st.frontier = some (e, rest))
    (hgoal : p.is_goal e.node.state = false) :
    (bestBeats (st.best (p.state_key e.node.state)) e.node.path_cost = true →
      astarLoop p h w (fuel + 1) st =
        astarLoop p h w fuel ⟨rest, st.counter, st.best, st.expanded⟩) ∧
    (bestBeats (st.best (p.state_key e.node.state)) e.node.path_cost = false →
      (astarLoop p h w (fuel + 1) st =
        astarLoop p h w fuel
          ⟨(pushChildren p h w
              (updBest st.best (p.state_key e.node.state) e.node.path_cost)
              (e.node.expand p) rest st.counter).1,
            (pushChildren p h w
              (updBest st.best (p.state_key e.node.state) e.node.path_cost)
              (e.node.expand p) rest st.counter).2,
            updBest st.best (p.state_key e.node.state) e.node.path_cost,
            st.expanded + 1⟩) ∧
      (pushChildren p h w
          (updBest st.best (p.state_key e.node.state) e.node.path_cost)
          (e.node.expand p) rest st.counter).1.map Entry.node =
        rest.map Entry.node ++
        (e.node.expand p).filter (fun ch =>
          !(bestBeats
            ((updBest st.best (p.state_key e.node.state) e.node.path_cost)
              (p.state_key ch.state)) ch.path_cost))) := by
  constructor
  · intro hbeat
    exact astarLoop_skip_eq p h w fuel hpop hgoal hbeat
  · intro hbeat
    exact ⟨astarLoop_expand_eq p h w fuel hpop hgoal hbeat,
      pushChildren_nodes p h w _ (e.node.expand p) rest st.counter⟩

/-- A trivial one-state problem used to witness step theorems. -/
def probTriv : Problem ℕ ℕ ℕ :=
  ⟨0, fun _ => [], fun s _ => s, fun _ _ _ => 1, fun _ => false, id⟩

/-- A root frontier entry for the trivial problem. -/
def entryTriv : Entry ℕ ℕ := ⟨0, 0, Node.root 0⟩

/-- An A* state whose best map already beats the root's cost. -/
def astTriv : AState ℕ ℕ ℕ := ⟨[entryTriv], 0, fun _ => some 0, 0⟩

/-- Witness for C3: on a concrete A* state whose best map records a cost `≤`
the popped cost, the iteration discards the node unchanged. -/
theorem c3_astar_step_witness :
    (popMin astTriv.frontier = some (entryTriv, []) ∧
      probTriv.is_goal entryTriv.node.state = false ∧
      bestBeats (astTriv.best (probTriv.state_key entryTriv.node.state))
        entryTriv.node.path_cost = true) ∧
    astarLoop probTriv (fun _ => 0) 1 1 astTriv =
      astarLoop probTriv (fun _ => 0) 1 0
        ⟨[], astTriv.counter, astTriv.best, astTriv.expanded⟩ := by
  have H := c3_astar_step probTriv (fun _ => 0) 1 0 astTriv entryTriv []
    (by rfl) (by rfl)
  exact ⟨⟨rfl, rfl, rfl⟩, H.1 rfl⟩

/-! ### Simulated annealing acceptance (C5) -/

theorem sa_step_eqs {ρ σ α κ : Type} (gen : RandGen ρ)
    (p : Problem σ α κ) (h : σ → ℚ) (alpha : ℚ) (mexp : ℚ → ℚ) (fuel : ℕ)
    (cur : Node σ α) (curh T : ℚ) (seed : ρ) (exp iters : ℕ)
    (a0 : α) (as : List α)
    (hgoal : p.is_goal cur.state = false) (hT : ¬ T ≤ tempFloor)
    (hacts : p.actions cur.state = a0 :: as) :
    let n1 := gen.nextNat seed
    let action := (a0 :: as).getD (n1.1 % (a0 :: as).length) a0
    let next := p.result cur.state action
    let delta := h next - curh
    let moved : Node σ α := Node.child next cur action
      (cur.path_cost + p.step_cost cur.state action next) (cur.depth + 1)
    (delta < 0 →
      saLoop gen p h alpha mexp (fuel + 1) cur curh T seed exp iters =
        saLoop gen p h alpha mexp fuel moved (h next) (T * alpha) n1.2
          (exp + 1) (iters + 1)) ∧
    (0 ≤ delta →
      let r := gen.nextQ n1.2
      (r.1 < mexp (-delta / T) →
        saLoop gen p h alpha mexp (fuel + 1) cur curh T seed exp iters =
          saLoop gen p h alpha mexp fuel moved (h next) (T * alpha) r.2
            (exp + 1) (iters + 1)) ∧
      (¬ r.1 < mexp (-delta / T) →
        saLoop gen p h alpha mexp (fuel + 1) cur curh T seed exp iters =
          saLoop gen p h alpha mexp fuel cur curh (T * alpha) r.2
            (exp + 1) (iters + 1))) := by
  intro n1 action next delta moved
  constructor
  · intro hd
    simp only [saLoop, hgoal, Bool.false_eq_true, if_false, if_neg hT, hacts,
      if_pos hd]
  · intro hd
    intro r
    constructor
    · intro hr
      simp only [saLoop, hgoal, Bool.false_eq_true, if_false, if_neg hT, hacts,
        if_neg (not_lt.mpr hd), if_pos hr]
    · intro hr
      simp only [saLoop, hgoal, Bool.false_eq_true, if_false, if_neg hT, hacts,
        if_neg (not_lt.mpr hd), if_neg hr]

/-- C5: on every simulated-annealing iteration that attempts a transition
(current state not a goal, temperature above the floor, at least one action):
an improving move (negative heuristic delta) is always taken; otherwise a
single random draw `r` decides the move, taken exactly when
`r < exp(-delta / T)`; and in all three outcomes the temperature is
multiplied by alpha (and `nodes_expanded` and `iterations` are bumped). -/
theorem c5_sa_metropolis {ρ σ α κ : Type} (gen : RandGen ρ)
    (p : Problem σ α κ) (h : σ → ℚ) (alpha : ℚ) (mexp : ℚ → ℚ) (fuel : ℕ)
    (cur : Node σ α) (curh T : ℚ) (seed : ρ) (exp iters : ℕ)
    (a0 : α) (as : List α)
    (hgoal : p.is_goal cur.state = false) (hT : ¬ T ≤ tempFloor)
    (hacts : p.actions cur.state = a0 :: as) :
    let n1 := gen.nextNat seed
    let action := (a0 :: as).getD (n1.1 % (a0 :: as).length) a0
    let next := p.result cur.state action
    let delta := h next - curh
    let moved : Node σ α := Node.child next cur action
      (cur.path_cost + p.step_cost cur.state action next) (cur.depth + 1)
    (delta < 0 →
      saLoop gen p h alpha mexp (fuel + 1) cur curh T seed exp iters =
        saLoop gen p h alpha mexp fuel moved (h next) (T * alpha) n1.2
          (exp + 1) (iters + 1)) ∧
    (0 ≤ delta →
      let r := gen.nextQ n1.2
      (r.1 < mexp (-delta / T) →
        saLoop gen p h alpha mexp (fuel + 1) cur curh T seed exp iters =
          saLoop gen p h alpha mexp fuel moved (h next) (T * alpha) r.2
            (exp + 1) (iters + 1)) ∧
      (¬ r.1 < mexp (-delta / T) →
        saLoop gen p h alpha mexp (fuel + 1) cur curh T seed exp iters =
          saLoop gen p h alpha mexp fuel cur curh (T * alpha) r.2
            (exp + 1) (iters + 1))) :=
  sa_step_eqs gen p h alpha mexp fuel cur curh T seed exp iters a0 as
    hgoal hT hacts

/-- A deterministic generator that always draws 0. -/
def unitGen : RandGen Unit := ⟨fun _ => (0, ()), fun _ => (0, ())⟩

/-- A goalless line problem: one action, stepping `s ↦ s + 1`. -/
def probLine : Problem ℕ ℕ ℕ :=
  ⟨0, fun _ => [0], fun s _ => s + 1, fun _ _ _ => 1, fun _ => false, id⟩

/-- A heuristic strictly improving along the line. -/
def sahEx : ℕ → ℚ := fun s => -(s : ℚ)

/-- Witness for C5: a concrete improving transition is taken and the
temperature is halved. -/
theorem c5_sa_metropolis_witness :
    (probLine.is_goal (Node.root 0 : Node ℕ ℕ).state = false ∧
      ¬ (1 : ℚ) ≤ tempFloor ∧
      probLine.actions (Node.root 0 : Node ℕ ℕ).state = [0] ∧
      sahEx 1 - 0 < 0) ∧
    saLoop unitGen probLine sahEx (1 / 2) (fun _ => 0) 1
        (Node.root 0) 0 1 () 0 0 =
      saLoop unitGen probLine sahEx (1 / 2) (fun _ => 0) 0
        (Node.child 1 (Node.root 0) 0 1 1) (sahEx 1) (1 * (1 / 2)) () 1 1 := by
  have H := c5_sa_metropolis unitGen probLine sahEx (1 / 2) (fun _ => 0) 0
    (Node.root 0) 0 1 () 0 0 0 [] rfl (by norm_num [tempFloor]) rfl
  refine ⟨⟨rfl, by norm_num [tempFloor], rfl, by norm_num [sahEx]⟩, ?_⟩
  have H2 := H.1 (by norm_num [sahEx, probLine, Node.state])
  convert H2 using 2 <;>
    norm_num [probLine, sahEx, Node.path_cost, Node.depth, Node.state]

/-! ### Greedy best-first: visited discipline (C6) -/

theorem greedyLoop_visited [DecidableEq κ] (p : Problem σ α κ) (h : σ → ℚ)
    {fr : List (Entry σ α)} {e : Entry σ α} {rest : List (Entry σ α)}
    (fuel : ℕ) (vis : κ → Bool) (counter exp : ℕ)
    (hpop : popMin fr = some (e, rest))
    (hv : vis (p.state_key e.node.state) = true) :
    greedyLoop p h (fuel + 1) fr vis counter exp =
      greedyLoop p h fuel rest vis counter exp := by
  simp only [greedyLoop, hpop]
  rw [if_pos hv]

theorem greedyLoop_goal [DecidableEq κ] (p : Problem σ α κ) (h : σ → ℚ)
    {fr : List (Entry σ α)} {e : Entry σ α} {rest : List (Entry σ α)}
    (fuel : ℕ) (vis : κ → Bool) (counter exp : ℕ)
    (hpop : popMin fr = some (e, rest))
    (hv : vis (p.state_key e.node.state) = false)
    (hg : p.is_goal e.node.state = true) :
    greedyLoop p h (fuel + 1) fr vis counter exp =
      (⟨some e.node, true, exp, 0⟩, []) := by
  simp only [greedyLoop, hpop]
  rw [if_neg (by simp [hv]), if_pos hg]

theorem greedyLoop_expand [DecidableEq κ] (p : Problem σ α κ) (h : σ → ℚ)
    {fr : List (Entry σ α)} {e : Entry σ α} {rest : List (Entry σ α)}
    (fuel : ℕ) (vis : κ → Bool) (counter exp : ℕ)
    (hpop : popMin fr = some (e, rest))
    (hv : vis (p.state_key e.node.state) = false)
    (hg : p.is_goal e.node.state = false) :
    greedyLoop p h (fuel + 1) fr vis counter exp =
      ((greedyLoop p h fuel
          (pushGreedy p h (updVis vis (p.state_key e.node.state))
            (e.node.expand p) rest counter).1
          (updVis vis (p.state_key e.node.state))
          (pushGreedy p h (updVis vis (p.state_key e.node.state))
            (e.node.expand p) rest counter).2
          (exp + 1)).1,
        p.state_key e.node.state ::
          (greedyLoop p h fuel
            (pushGreedy p h (updVis vis (p.state_key e.node.state))
              (e.node.expand p) rest counter).1
            (updVis vis (p.state_key e.node.state))
            (pushGreedy p h (updVis vis (p.state_key e.node.state))
              (e.node.expand p) rest counter).2
            (exp + 1)).2) := by
  simp only [greedyLoop, hpop]
  rw [if_neg (by simp [hv]), if_neg (by simp [hg])]

theorem greedyLoop_trace [DecidableEq κ] (p : Problem σ α κ) (h : σ → ℚ) :
    ∀ (fuel : ℕ) (fr : List (Entry σ α)) (vis : κ → Bool) (counter exp : ℕ),
      (∀ k ∈ (greedyLoop p h fuel fr vis counter exp).2, vis k = false) ∧
      (greedyLoop p h fuel fr vis counter exp).2.Nodup := by
  intro fuel
  induction fuel with
  | zero => intro fr vis counter exp; simp [greedyLoop]
  | succ n ih =>
    intro fr vis counter exp
    cases hpop : popMin fr with
    | none => simp [greedyLoop, hpop]
    | some pr =>
      obtain ⟨e, rest⟩ := pr
      by_cases hv : vis (p.state_key e.node.state) = true
      · rw [greedyLoop_visited p h n vis counter exp hpop hv]
        exact ih rest vis counter exp
      · have hv2 : vis (p.state_key e.node.state) = false :=
          Bool.eq_false_iff.mpr hv
        by_cases hg : p.is_goal e.node.state = true
        · rw [greedyLoop_goal p h n vis counter exp hpop hv2 hg]
          simp
        · have hg2 : p.is_goal e.node.state = false := Bool.eq_false_iff.mpr hg
          rw [greedyLoop_expand p h n vis counter exp hpop hv2 hg2]
          have hrec := ih
            (pushGreedy p h (updVis vis (p.state_key e.node.state))
              (e.node.expand p) rest counter).1
            (updVis vis (p.state_key e.node.state))
            (pushGreedy p h (updVis vis (p.state_key e.node.state))
              (e.node.expand p) rest counter).2
            (exp + 1)
          obtain ⟨hall, hnd⟩ := hrec
          have hnotin : p.state_key e.node.state ∉
              (greedyLoop p h n
                (pushGreedy p h (updVis vis (p.state_key e.node.state))
                  (e.node.expand p) rest counter).1
                (updVis vis (p.state_key e.node.state))
                (pushGreedy p h (updVis vis (p.state_key e.node.state))
                  (e.node.expand p) rest counter).2
                (exp + 1)).2 := by
            intro hmem
            have := hall _ hmem
            simp [updVis] at this
          constructor
          · intro k hk
            rcases List.mem_cons.mp hk with rfl | hk2
            · exact hv2
            · have := hall k hk2
              simp only [updVis] at this
              by_cases hkk : k = p.state_key e.node.state
              · exact absurd this (by simp [hkk])
              · simpa [hkk] using this
          · exact List.nodup_cons.mpr ⟨hnotin, hnd⟩

/-- C6: in greedy best-first search, (a) over any run, the expanded state
keys are pairwise distinct and none was visited at the start — once a key is
popped and marked visited it is never expanded again; and (b) a popped entry
whose key is already visited is discarded outright (the loop continues on the
remaining frontier with nothing else changed), even when its state is a goal:
the goal test happens only after the visited check. -/
theorem c6_greedy_visited_discipline [DecidableEq κ] (p : Problem σ α κ)
    (h : σ → ℚ) :
    (∀ (fuel : ℕ) (fr : List (Entry σ α)) (vis : κ → Bool) (counter exp : ℕ),
      (∀ k ∈ (greedyLoop p h fuel fr vis counter exp).2, vis k = false) ∧
      (greedyLoop p h fuel fr vis counter exp).2.Nodup) ∧
    (∀ (fuel : ℕ) (fr : List (Entry σ α)) (vis : κ → Bool) (counter exp : ℕ)
      (e : Entry σ α) (rest : List (Entry σ α)),
      popMin fr = some (e, rest) →
      vis (p.state_key e.node.state) = true →
      greedyLoop p h (fuel + 1) fr vis counter exp =
        greedyLoop p h fuel rest vis counter exp) :=
  ⟨greedyLoop_trace p h,
    fun fuel _ vis counter exp _ _ hpop hv =>
      greedyLoop_visited p h fuel vis counter exp hpop hv⟩

/-- Witness for C6: concrete discard of an already-visited goal entry. -/
theorem c6_greedy_visited_discipline_witness :
    (popMin [entryTriv] = some (entryTriv, []) ∧
      (fun _ : ℕ => true) (probTriv.state_key entryTriv.node.state) = true) ∧
    greedyLoop probTriv (fun _ => 0) 1 [entryTriv] (fun _ => true) 0 0 =
      greedyLoop probTriv (fun _ => 0) 0 [] (fun _ => true) 0 0 := by
  have H := c6_greedy_visited_discipline probTriv (fun _ => 0)
  exact ⟨⟨rfl, rfl⟩, H.2 0 [entryTriv] (fun _ => true) 0 0 entryTriv [] rfl rfl⟩

/-! ### Hill climbing (C7) -/

theorem pyMinBy_mem (f : X → ℚ) :
    ∀ (xs : List X) (b : X), pyMinBy f b xs ∈ b :: xs := by
  intro xs
  induction xs with
  | nil => intro b; simp [pyMinBy]
  | cons x xs ih =>
    intro b
    simp only [pyMinBy]
    by_cases hc : f x < f b
    · rw [if_pos hc]
      have := ih x
      rcases List.mem_cons.mp this with heq | hmem
      · rw [heq]; simp
      · exact List.mem_cons_of_mem _ (List.mem_cons_of_mem _ hmem)
    · rw [if_neg hc]
      have := ih b
      rcases List.mem_cons.mp this with heq | hmem
      · rw [heq]; simp
      · exact List.mem_cons_of_mem _ (List.mem_cons_of_mem _ hmem)

theorem pyMinBy_le (f : X → ℚ) :
    ∀ (xs : List X) (b : X) (y : X), y ∈ b :: xs →
      f (pyMinBy f b xs) ≤ f y := by
  intro xs
  induction xs with
  | nil =>
    intro b y hy
    rw [List.mem_singleton] at hy
    subst hy
    simp [pyMinBy]
  | cons x xs ih =>
    intro b y hy
    simp only [pyMinBy]
    by_cases hc : f x < f b
    · rw [if_pos hc]
      rcases List.mem_cons.mp hy with h1 | hy2
      · calc f (pyMinBy f x xs) ≤ f x := ih x x (List.mem_cons_self _ _)
          _ ≤ f b := le_of_lt hc
          _ = f y := by rw [h1]
      · exact ih x y hy2
    · rw [if_neg hc]
      rcases List.mem_cons.mp hy with h1 | hy2
      · calc f (pyMinBy f b xs) ≤ f b := ih b b (List.mem_cons_self _ _)
          _ = f y := by rw [h1]
      · rcases List.mem_cons.mp hy2 with h1 | hy3
        · calc f (pyMinBy f b xs) ≤ f b := ih b b (List.mem_cons_self _ _)
            _ ≤ f x := not_lt.mp hc
            _ = f y := by rw [h1]
        · exact ih b y (List.mem_cons_of_mem _ hy3)

theorem hcLoop_goal (p : Problem σ α κ) (h : σ → ℚ) (fuel : ℕ)
    (cur : Node σ α) (curh : ℚ) (exp iters : ℕ)
    (hg : p.is_goal cur.state = true) :
    hcLoop p h (fuel + 1) cur curh exp iters =
      (⟨some cur, true, exp, iters + 1⟩, cur.state, []) := by
  simp only [hcLoop]
  rw [if_pos hg]

theorem hcLoop_isolated (p : Problem σ α κ) (h : σ → ℚ) (fuel : ℕ)
    (cur : Node σ α) (curh : ℚ) (exp iters : ℕ)
    (hg : p.is_goal cur.state = false) (hex : cur.expand p = []) :
    hcLoop p h (fuel + 1) cur curh exp iters =
      (localResult p cur exp (iters + 1), cur.state, []) := by
  simp only [hcLoop]
  rw [if_neg (by simp [hg]), hex]

theorem hcLoop_stall (p : Problem σ α κ) (h : σ → ℚ) (fuel : ℕ)
    (cur : Node σ α) (curh : ℚ) (exp iters : ℕ) (n0 : Node σ α)
    (ns : List (Node σ α)) (hg : p.is_goal cur.state = false)
    (hex : cur.expand p = n0 :: ns)
    (hstall : curh ≤ h (pyMinBy (fun n => h n.state) n0 ns).state) :
    hcLoop p h (fuel + 1) cur curh exp iters =
      (localResult p cur (exp + (n0 :: ns).length) (iters + 1), cur.state,
        [(n0 :: ns).length]) := by
  simp only [hcLoop]
  rw [if_neg (by simp [hg]), hex]
  simp only [if_pos hstall]

theorem hcLoop_move (p : Problem σ α κ) (h : σ → ℚ) (fuel : ℕ)
    (cur : Node σ α) (curh : ℚ) (exp iters : ℕ) (n0 : Node σ α)
    (ns : List (Node σ α)) (hg : p.is_goal cur.state = false)
    (hex : cur.expand p = n0 :: ns)
    (hmove : ¬ curh ≤ h (pyMinBy (fun n => h n.state) n0 ns).state) :
    hcLoop p h (fuel + 1) cur curh exp iters =
      ((hcLoop p h fuel (pyMinBy (fun n => h n.state) n0 ns)
          (h (pyMinBy (fun n => h n.state) n0 ns).state)
          (exp + (n0 :: ns).length) (iters + 1)).1,
        (hcLoop p h fuel (pyMinBy (fun n => h n.state) n0 ns)
          (h (pyMinBy (fun n => h n.state) n0 ns).state)
          (exp + (n0 :: ns).length) (iters + 1)).2.1,
        (n0 :: ns).length ::
          (hcLoop p h fuel (pyMinBy (fun n => h n.state) n0 ns)
            (h (pyMinBy (fun n => h n.state) n0 ns).state)
            (exp + (n0 :: ns).length) (iters + 1)).2.2) := by
  simp only [hcLoop]
  rw [if_neg (by simp [hg]), hex]
  simp only [if_neg hmove]

theorem hcLoop_invariants (p : Problem σ α κ) (h : σ → ℚ) :
    ∀ (fuel : ℕ) (cur : Node σ α) (curh : ℚ) (exp iters : ℕ),
      (hcLoop p h fuel cur curh exp iters).1.success =
        p.is_goal (hcLoop p h fuel cur curh exp iters).2.1 ∧
      (hcLoop p h fuel cur curh exp iters).1.nodes_expanded =
        exp + ((hcLoop p h fuel cur curh exp iters).2.2).sum := by
  intro fuel
  induction fuel with
  | zero => intro cur curh exp iters; simp [hcLoop, localResult]
  | succ n ih =>
    intro cur curh exp iters
    by_cases hg : p.is_goal cur.state = true
    · rw [hcLoop_goal p h n cur curh exp iters hg]
      simp [hg]
    · have hg2 : p.is_goal cur.state = false := Bool.eq_false_iff.mpr hg
      cases hex : cur.expand p with
      | nil =>
        rw [hcLoop_isolated p h n cur curh exp iters hg2 hex]
        simp [localResult]
      | cons n0 ns =>
        by_cases hstall : curh ≤ h (pyMinBy (fun n => h n.state) n0 ns).state
        · rw [hcLoop_stall p h n cur curh exp iters n0 ns hg2 hex hstall]
          simp [localResult]
        · rw [hcLoop_move p h n cur curh exp iters n0 ns hg2 hex hstall]
          have := ih (pyMinBy (fun n => h n.state) n0 ns)
            (h (pyMinBy (fun n => h n.state) n0 ns).state)
            (exp + (n0 :: ns).length) (iters + 1)
          obtain ⟨h1, h2⟩ := this
          refine ⟨h1, ?_⟩
          simp only [List.sum_cons, h2]
          ring

/-- C7: hill climbing (a) maintains that the returned result's `success` flag
is exactly the goal test on the final current state and that `nodes_expanded`
counts every generated neighbor (the accumulator plus all per-pass neighbor
counts); and (b) in each pass on a non-goal state with neighbors, the
selected neighbor attains the minimum heuristic value among all generated
neighbors, the loop stops (reporting on the current state) when that minimum
is not strictly below the current heuristic, and otherwise moves to that
neighbor. -/
theorem c7_hill_climbing (p : Problem σ α κ) (h : σ → ℚ) :
    (∀ (fuel : ℕ) (cur : Node σ α) (curh : ℚ) (exp iters : ℕ),
      (hcLoop p h fuel cur curh exp iters).1.success =
        p.is_goal (hcLoop p h fuel cur curh exp iters).2.1 ∧
      (hcLoop p h fuel cur curh exp iters).1.nodes_expanded =
        exp + ((hcLoop p h fuel cur curh exp iters).2.2).sum) ∧
    (∀ (fuel : ℕ) (cur : Node σ α) (curh : ℚ) (exp iters : ℕ)
      (n0 : Node σ α) (ns : List (Node σ α)),
      p.is_goal cur.state = false → cur.expand p = n0 :: ns →
      (pyMinBy (fun n => h n.state) n0 ns ∈ n0 :: ns ∧
        ∀ x ∈ n0 :: ns,
          h (pyMinBy (fun n => h n.state) n0 ns).state ≤ h x.state) ∧
      (curh ≤ h (pyMinBy (fun n => h n.state) n0 ns).state →
        hcLoop p h (fuel + 1) cur curh exp iters =
          (localResult p cur (exp + (n0 :: ns).length) (iters + 1), cur.state,
            [(n0 :: ns).length])) ∧
      (¬ curh ≤ h (pyMinBy (fun n => h n.state) n0 ns).state →
        hcLoop p h (fuel + 1) cur curh exp iters =
          ((hcLoop p h fuel (pyMinBy (fun n => h n.state) n0 ns)
              (h (pyMinBy (fun n => h n.state) n0 ns).state)
              (exp + (n0 :: ns).length) (iters + 1)).1,
            (hcLoop p h fuel (pyMinBy (fun n => h n.state) n0 ns)
              (h (pyMinBy (fun n => h n.state) n0 ns).state)
              (exp + (n0 :: ns).length) (iters + 1)).2.1,
            (n0 :: ns).length ::
              (hcLoop p h fuel (pyMinBy (fun n => h n.state) n0 ns)
                (h (pyMinBy (fun n => h n.state) n0 ns).state)
                (exp + (n0 :: ns).length) (iters + 1)).2.2))) := by
  refine ⟨hcLoop_invariants p h, ?_⟩
  intro fuel cur curh exp iters n0 ns hg hex
  refine ⟨⟨pyMinBy_mem (fun n => h n.state) ns n0,
    fun x hx => pyMinBy_le (fun n => h n.state) ns n0 x hx⟩, ?_, ?_⟩
  · intro hstall
    exact hcLoop_stall p h fuel cur curh exp iters n0 ns hg hex hstall
  · intro hmove
    exact hcLoop_move p h fuel cur curh exp iters n0 ns hg hex hmove

/-- Witness for C7 at a concrete one-neighbor problem whose neighbor does not
improve the heuristic: the loop stalls after generating one neighbor. -/
theorem c7_hill_climbing_witness :
    (probLine.is_goal (Node.root 0 : Node ℕ ℕ).state = false ∧
      (Node.root 0 : Node ℕ ℕ).expand probLine =
        [Node.child 1 (Node.root 0) 0 (0 + 1) 1]) ∧
    hcLoop probLine (fun _ => 0) 1 (Node.root 0) 0 0 0 =
      (localResult probLine (Node.root 0) (0 + 1) 1, (0 : ℕ), [1]) := by
  have H := c7_hill_climbing probLine (fun _ => 0)
  have H2 := (H.2 0 (Node.root 0) 0 0 0 (Node.child 1 (Node.root 0) 0 (0 + 1) 1)
    [] rfl (by rfl)).2.1 (le_refl 0)
  refine ⟨⟨rfl, by rfl⟩, ?_⟩
  simpa [Node.state] using H2

/-! ### IDA* structure (C4) -/

theorem idaActs_filter [DecidableEq σ] (p : Problem σ α κ)
    (rec2 : Node σ α → ℚ → ℕ → WithTop ℚ × Option (Node σ α) × ℕ)
    (node : Node σ α) (g : ℚ) :
    ∀ (as : List α) (minv : WithTop ℚ) (exp : ℕ),
      idaActs p rec2 node g as minv exp =
        idaActs p rec2 node g
          (as.filter (fun a => !undoesParent node (p.result node.state a)))
          minv exp := by
  intro as
  induction as with
  | nil => intro minv exp; simp
  | cons a as ih =>
    intro minv exp
    simp only [List.filter_cons]
    by_cases hu : undoesParent node (p.result node.state a) = true
    · rw [if_neg (by simp [hu])]
      simp only [idaActs]
      rw [if_pos hu]
      exact ih minv exp
    · have hu2 : undoesParent node (p.result node.state a) = false :=
        Bool.eq_false_iff.mpr hu
      rw [if_pos (by simp [hu2])]
      simp only [idaActs]
      simp only [hu2, Bool.false_eq_true, if_false]
      by_cases hr : (rec2 (Node.child (p.result node.state a) node a
          (g + p.step_cost node.state a (p.result node.state a))
          (node.depth + 1)) (g + p.step_cost node.state a (p.result node.state a))
          exp).1 = ((-1 : ℚ) : WithTop ℚ)
      · rw [if_pos hr, if_pos hr]
      · rw [if_neg hr, if_neg hr]
        exact ih _ _

/-- C4: IDA* structure. (a) The recursive expansion of a node processes
exactly the actions whose resulting state does not equal the parent's state
(single-move undo avoidance). (b) The outer loop starts with
`bound = h(initial)`, returns success as soon as the recursion signals the
`-1` sentinel, returns failure when the minimum pruned candidate is infinite,
and otherwise repeats with the bound set to that candidate. -/
theorem c4_idastar_structure [DecidableEq σ] (p : Problem σ α κ)
    (h : σ → ℚ) :
    (∀ (rec2 : Node σ α → ℚ → ℕ → WithTop ℚ × Option (Node σ α) × ℕ)
      (node : Node σ α) (g : ℚ) (as : List α) (minv : WithTop ℚ) (exp : ℕ),
      idaActs p rec2 node g as minv exp =
        idaActs p rec2 node g
          (as.filter (fun a => !undoesParent node (p.result node.state a)))
          minv exp) ∧
    (∀ recFuel outerFuel, idaSearch p h recFuel outerFuel =
      idaOuter p h recFuel outerFuel (h p.initial) 0) ∧
    (∀ (recFuel fuel : ℕ) (bound : ℚ) (exp : ℕ),
      ((idaRec p h bound recFuel (Node.root p.initial) 0 exp).1 =
          ((-1 : ℚ) : WithTop ℚ) →
        idaOuter p h recFuel (fuel + 1) bound exp =
          ⟨(idaRec p h bound recFuel (Node.root p.initial) 0 exp).2.1, true,
            (idaRec p h bound recFuel (Node.root p.initial) 0 exp).2.2, 0⟩) ∧
      ((idaRec p h bound recFuel (Node.root p.initial) 0 exp).1 = ⊤ →
        idaOuter p h recFuel (fuel + 1) bound exp =
          ⟨none, false,
            (idaRec p h bound recFuel (Node.root p.initial) 0 exp).2.2, 0⟩) ∧
      (∀ t : ℚ,
        (idaRec p h bound recFuel (Node.root p.initial) 0 exp).1 =
          (t : WithTop ℚ) → t ≠ -1 →
        idaOuter p h recFuel (fuel + 1) bound exp =
          idaOuter p h recFuel fuel t
            (idaRec p h bound recFuel (Node.root p.initial) 0 exp).2.2)) := by
  refine ⟨fun rec2 node g as minv exp => idaActs_filter p rec2 node g as minv exp,
    fun recFuel outerFuel => rfl, ?_⟩
  intro recFuel fuel bound exp
  refine ⟨?_, ?_, ?_⟩
  · intro hr
    simp only [idaOuter, hr]
    simp
  · intro hr
    have : (idaRec p h bound recFuel (Node.root p.initial) 0 exp).1 =
        (none : Option ℚ) := hr
    simp only [idaOuter, this]
  · intro t hr hne
    simp only [idaOuter, hr]
    rw [if_neg hne]

/-- A problem whose initial state is already the goal (no actions). -/
def probGoal : Problem ℕ ℕ ℕ :=
  ⟨0, fun _ => [], fun s _ => s, fun _ _ _ => 1, fun _ => true, id⟩

/-- Witness for C4: on a goal-initial problem the first recursion signals the
sentinel and the outer loop reports success at once. -/
theorem c4_idastar_structure_witness :
    ((idaRec probGoal (fun _ => 0) 0 1 (Node.root 0) 0 0).1 =
        ((-1 : ℚ) : WithTop ℚ)) ∧
    idaOuter probGoal (fun _ => 0) 1 1 0 0 =
      ⟨some (Node.root 0), true, 0, 0⟩ := by
  have H := (c4_idastar_structure probGoal (fun _ => 0)).2.2 1 0 0 0
  have hr : (idaRec probGoal (fun _ => 0) 0 1 (Node.root 0) 0 0).1 =
      ((-1 : ℚ) : WithTop ℚ) := by
    simp [idaRec, probGoal, Node.state]
  exact ⟨hr, by simpa [idaRec, probGoal, Node.state] using H.1 hr⟩

/-! ### Goal-initial behavior (C2) -/

theorem popMin_singleton (e : Entry σ α) : popMin [e] = some (e, []) :=
  popMin_cons_none rfl

/-- C2 amended: when the initial state already satisfies `is_goal`, the five
search algorithms A*, greedy best-first, hill climbing, simulated annealing
and IDA* return `success = true`, `nodes_expanded = 0` and a solution path of
length exactly 1 (the loop-based ones given at least one round of fuel). The
genetic algorithm does not satisfy this (see the counterexample): its goal
test runs only after a chromosome action was applied. -/
theorem c2_goal_initial_amended {σ α κ : Type} [DecidableEq σ]
    [DecidableEq κ] (p : Problem σ α κ) (hg : p.is_goal p.initial = true) :
    (∀ (h : σ → ℚ) (w : ℚ) (fuel : ℕ),
      (astarSearch p h w (fuel + 1)).success = true ∧
      (astarSearch p h w (fuel + 1)).nodes_expanded = 0 ∧
      (astarSearch p h w (fuel + 1)).solution_path.length = 1) ∧
    (∀ (h : σ → ℚ) (fuel : ℕ),
      (greedySearch p h (fuel + 1)).success = true ∧
      (greedySearch p h (fuel + 1)).nodes_expanded = 0 ∧
      (greedySearch p h (fuel + 1)).solution_path.length = 1) ∧
    (∀ (h : σ → ℚ) (max_steps : ℕ),
      (hcSearch p h max_steps).success = true ∧
      (hcSearch p h max_steps).nodes_expanded = 0 ∧
      (hcSearch p h max_steps).solution_path.length = 1) ∧
    (∀ (ρ : Type) (gen : RandGen ρ) (h : σ → ℚ) (T0 alpha : ℚ)
      (mexp : ℚ → ℚ) (max_steps : ℕ) (seed : ρ),
      (saSearch gen p h T0 alpha mexp max_steps seed).success = true ∧
      (saSearch gen p h T0 alpha mexp max_steps seed).nodes_expanded = 0 ∧
      (saSearch gen p h T0 alpha mexp max_steps seed).solution_path.length = 1) ∧
    (∀ (h : σ → ℚ) (recFuel outerFuel : ℕ),
      (idaSearch p h (recFuel + 1) (outerFuel + 1)).success = true ∧
      (idaSearch p h (recFuel + 1) (outerFuel + 1)).nodes_expanded = 0 ∧
      (idaSearch p h (recFuel + 1) (outerFuel + 1)).solution_path.length = 1) := by
  refine ⟨?_, ?_, ?_, ?_, ?_⟩
  · intro h w fuel
    simp [astarSearch, astarLoop, popMin_singleton, Node.state, hg,
      SearchResult.solution_path, Node.solutionPath]
  · intro h fuel
    simp [greedySearch, greedyLoop, popMin_singleton, Node.state, hg,
      SearchResult.solution_path, Node.solutionPath]
  · intro h max_steps
    cases max_steps with
    | zero =>
      simp [hcSearch, hcLoop, localResult, Node.state, hg,
        SearchResult.solution_path, Node.solutionPath]
    | succ n =>
      simp [hcSearch, hcLoop, Node.state, hg,
        SearchResult.solution_path, Node.solutionPath]
  · intro ρ gen h T0 alpha mexp max_steps seed
    cases max_steps with
    | zero =>
      simp [saSearch, saLoop, localResult, Node.state, hg,
        SearchResult.solution_path, Node.solutionPath]
    | succ n =>
      simp [saSearch, saLoop, Node.state, hg,
        SearchResult.solution_path, Node.solutionPath]
  · intro h recFuel outerFuel
    have hcoe : ((-1 : ℚ) : WithTop ℚ) = Option.some (-1 : ℚ) := rfl
    simp [idaSearch, idaOuter, idaRec, Node.state, hg, hcoe,
      SearchResult.solution_path, Node.solutionPath]

/-- A deterministic generator drawing from explicit streams of naturals and
rationals. -/
def pairGen : RandGen (List ℕ × List ℚ) where
  nextNat := fun s =>
    match s.1 with
    | [] => (0, s)
    | n :: t => (n, (t, s.2))
  nextQ := fun s =>
    match s.2 with
    | [] => (0, s)
    | q :: t => (q, (s.1, t))

/-- The 2×2 sliding puzzle whose initial state is the goal `(1,2,3,0)`. -/
def puzzle2 : Problem (List ℕ) String (List ℕ) :=
  SlidingPuzzle.problem 2 [1, 2, 3, 0] [1, 2, 3, 0]

/-- C2 counterexample: on a problem whose initial state is the goal, the
genetic algorithm (population 1, one generation, chromosome `[UP, DOWN]`
drawn from the stream) returns success only after replaying moves:
`nodes_expanded = 2` (not 0) and a solution path of length 3 (not 1). -/
theorem c2_goal_initial_counterexample :
    puzzle2.is_goal puzzle2.initial = true ∧
    (gaSearch pairGen puzzle2 (fun _ => 0) 1 0 1 2 ([0, 1], [])).success = true ∧
    (gaSearch pairGen puzzle2 (fun _ => 0) 1 0 1 2 ([0, 1], [])).nodes_expanded = 2 ∧
    (gaSearch pairGen puzzle2 (fun _ => 0) 1 0 1 2
      ([0, 1], [])).solution_path.length = 3 := by
  refine ⟨by rfl, by rfl, by rfl, by rfl⟩

/-- Witness for C2 (amended) on the goal-initial 2×2 puzzle: all five
algorithms succeed immediately with no expansions and a length-1 path. -/
theorem c2_goal_initial_amended_witness :
    puzzle2.is_goal puzzle2.initial = true ∧
    ((astarSearch puzzle2 (fun _ => 0) 1 1).success = true ∧
      (astarSearch puzzle2 (fun _ => 0) 1 1).nodes_expanded = 0 ∧
      (astarSearch puzzle2 (fun _ => 0) 1 1).solution_path.length = 1) ∧
    ((greedySearch puzzle2 (fun _ => 0) 1).success = true ∧
      (greedySearch puzzle2 (fun _ => 0) 1).nodes_expanded = 0 ∧
      (greedySearch puzzle2 (fun _ => 0) 1).solution_path.length = 1) ∧
    ((hcSearch puzzle2 (fun _ => 0) 5).success = true ∧
      (hcSearch puzzle2 (fun _ => 0) 5).nodes_expanded = 0 ∧
      (hcSearch puzzle2 (fun _ => 0) 5).solution_path.length = 1) ∧
    ((saSearch pairGen puzzle2 (fun _ => 0) 10 (99 / 100) (fun _ => 0) 5
        ([], [])).success = true ∧
      (saSearch pairGen puzzle2 (fun _ => 0) 10 (99 / 100) (fun _ => 0) 5
        ([], [])).nodes_expanded = 0 ∧
      (saSearch pairGen puzzle2 (fun _ => 0) 10 (99 / 100) (fun _ => 0) 5
        ([], [])).solution_path.length = 1) ∧
    ((idaSearch puzzle2 (fun _ => 0) 1 1).success = true ∧
      (idaSearch puzzle2 (fun _ => 0) 1 1).nodes_expanded = 0 ∧
      (idaSearch puzzle2 (fun _ => 0) 1 1).solution_path.length = 1) := by
  have H := c2_goal_initial_amended puzzle2 rfl
  exact ⟨rfl, H.1 (fun _ => 0) 1 0, H.2.1 (fun _ => 0) 0,
    H.2.2.1 (fun _ => 0) 5,
    H.2.2.2.1 (List ℕ × List ℚ) pairGen (fun _ => 0) 10 (99 / 100)
      (fun _ => 0) 5 ([], []),
    H.2.2.2.2 (fun _ => 0) 0 0⟩

/-! ### Round-trip of successful solutions (C9) -/

/-- A node is valid when its recorded action sequence legally replays from the
problem's initial state to its recorded state. -/
def ValidFrom [DecidableEq α] (p : Problem σ α κ) (n : Node σ α) : Prop :=
  legalRun p p.initial n.acts = some n.state

theorem validFrom_root [DecidableEq α] (p : Problem σ α κ) :
    ValidFrom p (Node.root p.initial) := rfl

theorem validFrom_child [DecidableEq α] (p : Problem σ α κ)
    {n : Node σ α} (hn : ValidFrom p n) {a : α}
    (ha : a ∈ p.actions n.state) (c : ℚ) (d : ℕ) :
    ValidFrom p (Node.child (p.result n.state a) n a c d) := by
  unfold ValidFrom at hn ⊢
  show legalRun p p.initial (n.acts ++ [a]) = some (p.result n.state a)
  rw [legalRun_append, hn]
  show legalRun p n.state [a] = some (p.result n.state a)
  simp [legalRun, ha]

theorem validFrom_expand [DecidableEq α] (p : Problem σ α κ)
    {n : Node σ α} (hn : ValidFrom p n) {ch : Node σ α}
    (hch : ch ∈ n.expand p) : ValidFrom p ch := by
  simp only [Node.expand, List.mem_map] at hch
  obtain ⟨a, ha, rfl⟩ := hch
  exact validFrom_child p hn ha _ _

theorem getD_mem {l : List X} {d : X} (hd : d ∈ l) (i : ℕ) :
    l.getD i d ∈ l := by
  rw [List.getD_eq_getElem?_getD]
  cases hget : l[i]? with
  | none => simpa [hget] using hd
  | some x =>
    have := List.getElem?_mem hget
    simpa [hget] using this

theorem solutionPath_actions (n : Node σ α) :
    n.solutionPath.filterMap Node.actionOpt = n.acts := by
  induction n with
  | root s => simp [Node.solutionPath, Node.acts, Node.actionOpt]
  | child s par a c d ih =>
    simp [Node.solutionPath, Node.acts, Node.actionOpt, ih]

/-- The round-trip property of a successful result: replaying the action
fields of the solution path from the initial state through `result` reaches a
goal state which is exactly the solution node's state. -/
def RoundTrip [DecidableEq α] (p : Problem σ α κ) (r : SearchResult σ α) :
    Prop :=
  ∃ m, r.solution_node = some m ∧
    p.is_goal (foldResult p p.initial
      (r.solution_path.filterMap Node.actionOpt)) = true ∧
    foldResult p p.initial (r.solution_path.filterMap Node.actionOpt) = m.state

theorem roundTrip_of_valid [DecidableEq α] (p : Problem σ α κ)
    {r : SearchResult σ α} {m : Node σ α} (hm : r.solution_node = some m)
    (hv : ValidFrom p m) (hgoal : p.is_goal m.state = true) :
    RoundTrip p r := by
  refine ⟨m, hm, ?_, ?_⟩
  · have hfold := legalRun_eq_foldResult p m.acts p.initial m.state hv
    simp only [SearchResult.solution_path, hm, solutionPath_actions, hfold]
    exact hgoal
  · have hfold := legalRun_eq_foldResult p m.acts p.initial m.state hv
    simp only [SearchResult.solution_path, hm, solutionPath_actions, hfold]

theorem astarLoop_success_valid [DecidableEq α] [DecidableEq κ]
    (p : Problem σ α κ) (h : σ → ℚ) (w : ℚ) :
    ∀ (fuel : ℕ) (st : AState σ α κ),
      (∀ e ∈ st.frontier, ValidFrom p e.node) →
      (astarLoop p h w fuel st).success = true →
      ∃ m, (astarLoop p h w fuel st).solution_node = some m ∧
        ValidFrom p m ∧ p.is_goal m.state = true := by
  intro fuel
  induction fuel with
  | zero => intro st _ hs; exact absurd hs (by simp [astarLoop])
  | succ n ih =>
    intro st hval hs
    cases hpop : popMin st.frontier with
    | none =>
      rw [show astarLoop p h w (n + 1) st =
        ⟨none, false, st.expanded, 0⟩ by simp only [astarLoop, hpop]] at hs ⊢
      exact absurd hs (by simp)
    | some pr =>
      obtain ⟨e, rest⟩ := pr
      have hrest : ∀ x ∈ rest, ValidFrom p x.node := fun x hx =>
        hval x ((popMin_perm hpop).symm.subset (List.mem_cons_of_mem _ hx))
      by_cases hg : p.is_goal e.node.state = true
      · rw [show astarLoop p h w (n + 1) st =
          ⟨some e.node, true, st.expanded, 0⟩ by
            simp only [astarLoop, hpop]; rw [if_pos hg]] at hs ⊢
        exact ⟨e.node, rfl, hval e (popMin_mem hpop), hg⟩
      · have hg2 : p.is_goal e.node.state = false := Bool.eq_false_iff.mpr hg
        by_cases hb : bestBeats (st.best (p.state_key e.node.state))
            e.node.path_cost = true
        · rw [astarLoop_skip_eq p h w n hpop hg2 hb] at hs ⊢
          exact ih ⟨rest, st.counter, st.best, st.expanded⟩ hrest hs
        · have hb2 := Bool.eq_false_iff.mpr hb
          rw [astarLoop_expand_eq p h w n hpop hg2 hb2] at hs ⊢
          refine ih _ ?_ hs
          intro x hx
          rcases pushChildren_mem p h w _ _ _ _ x hx with hin | ⟨c2, hc2, hn, _⟩
          · exact hrest x hin
          · rw [hn]
            exact validFrom_expand p (hval e (popMin_mem hpop)) hc2

theorem astarSearch_success_valid [DecidableEq α] [DecidableEq κ]
    (p : Problem σ α κ) (h : σ → ℚ) (w : ℚ) (fuel : ℕ)
    (hs : (astarSearch p h w fuel).success = true) :
    ∃ m, (astarSearch p h w fuel).solution_node = some m ∧
      ValidFrom p m ∧ p.is_goal m.state = true := by
  refine astarLoop_success_valid p h w fuel _ ?_ hs
  intro e he
  rw [List.mem_singleton] at he
  subst he
  exact validFrom_root p

theorem pushGreedy_mem [DecidableEq κ] (p : Problem σ α κ) (h : σ → ℚ)
    (vis : κ → Bool) :
    ∀ (children : List (Node σ α)) (fr : List (Entry σ α)) (counter : ℕ),
      ∀ e ∈ (pushGreedy p h vis children fr counter).1,
        e ∈ fr ∨ ∃ ch ∈ children, e.node = ch := by
  intro children
  induction children with
  | nil => intro fr counter e he; exact Or.inl (by simpa [pushGreedy] using he)
  | cons ch rest ih =>
    intro fr counter e he
    simp only [pushGreedy, List.foldl_cons] at he
    by_cases hv : vis (p.state_key ch.state) = true
    · rw [if_pos hv] at he
      rcases ih fr counter e he with hin | ⟨c2, hc2, hn⟩
      · exact Or.inl hin
      · exact Or.inr ⟨c2, List.mem_cons_of_mem _ hc2, hn⟩
    · rw [if_neg hv] at he
      rcases ih (fr ++ [⟨h ch.state, counter + 1, ch⟩]) (counter + 1) e
          (by exact he) with hin | ⟨c2, hc2, hn⟩
      · rcases List.mem_append.mp hin with hfr | hnew
        · exact Or.inl hfr
        · rw [List.mem_singleton] at hnew
          subst hnew
          exact Or.inr ⟨ch, List.mem_cons_self _ _, rfl⟩
      · exact Or.inr ⟨c2, List.mem_cons_of_mem _ hc2, hn⟩

theorem greedyLoop_success_valid [DecidableEq α] [DecidableEq κ]
    (p : Problem σ α κ) (h : σ → ℚ) :
    ∀ (fuel : ℕ) (fr : List (Entry σ α)) (vis : κ → Bool) (counter exp : ℕ),
      (∀ e ∈ fr, ValidFrom p e.node) →
      (greedyLoop p h fuel fr vis counter exp).1.success = true →
      ∃ m, (greedyLoop p h fuel fr vis counter exp).1.solution_node = some m ∧
        ValidFrom p m ∧ p.is_goal m.state = true := by
  intro fuel
  induction fuel with
  | zero => intro fr vis counter exp _ hs; exact absurd hs (by simp [greedyLoop])
  | succ n ih =>
    intro fr vis counter exp hval hs
    cases hpop : popMin fr with
    | none =>
      rw [show greedyLoop p h (n + 1) fr vis counter exp =
        (⟨none, false, exp, 0⟩, []) by simp only [greedyLoop, hpop]] at hs ⊢
      exact absurd hs (by simp)
    | some pr =>
      obtain ⟨e, rest⟩ := pr
      have hrest : ∀ x ∈ rest, ValidFrom p x.node := fun x hx =>
        hval x ((popMin_perm hpop).symm.subset (List.mem_cons_of_mem _ hx))
      by_cases hv : vis (p.state_key e.node.state) = true
      · rw [greedyLoop_visited p h n vis counter exp hpop hv] at hs ⊢
        exact ih rest vis counter exp hrest hs
      · have hv2 := Bool.eq_false_iff.mpr hv
        by_cases hg : p.is_goal e.node.state = true
        · rw [greedyLoop_goal p h n vis counter exp hpop hv2 hg] at hs ⊢
          exact ⟨e.node, rfl, hval e (popMin_mem hpop), hg⟩
        · have hg2 := Bool.eq_false_iff.mpr hg
          rw [greedyLoop_expand p h n vis counter exp hpop hv2 hg2] at hs ⊢
          refine ih _ _ _ _ ?_ hs
          intro x hx
          rcases pushGreedy_mem p h _ _ _ _ x hx with hin | ⟨c2, hc2, hn⟩
          · exact hrest x hin
          · rw [hn]
            exact validFrom_expand p (hval e (popMin_mem hpop)) hc2

theorem greedySearch_success_valid [DecidableEq α] [DecidableEq κ]
    (p : Problem σ α κ) (h : σ → ℚ) (fuel : ℕ)
    (hs : (greedySearch p h fuel).success = true) :
    ∃ m, (greedySearch p h fuel).solution_node = some m ∧
      ValidFrom p m ∧ p.is_goal m.state = true := by
  refine greedyLoop_success_valid p h fuel _ _ _ _ ?_ hs
  intro e he
  rw [List.mem_singleton] at he
  subst he
  exact validFrom_root p

theorem localResult_success [DecidableEq α] (p : Problem σ α κ)
    {cur : Node σ α} {exp iters : ℕ} (hv : ValidFrom p cur)
    (hs : (localResult p cur exp iters).success = true) :
    ∃ m, (localResult p cur exp iters).solution_node = some m ∧
      ValidFrom p m ∧ p.is_goal m.state = true := by
  have hg : p.is_goal cur.state = true := by
    simpa [localResult] using hs
  refine ⟨cur, ?_, hv, hg⟩
  simp [localResult, hg]

theorem hcLoop_success_valid [DecidableEq α] (p : Problem σ α κ) (h : σ → ℚ) :
    ∀ (fuel : ℕ) (cur : Node σ α) (curh : ℚ) (exp iters : ℕ),
      ValidFrom p cur →
      (hcLoop p h fuel cur curh exp iters).1.success = true →
      ∃ m, (hcLoop p h fuel cur curh exp iters).1.solution_node = some m ∧
        ValidFrom p m ∧ p.is_goal m.state = true := by
  intro fuel
  induction fuel with
  | zero =>
    intro cur curh exp iters hv hs
    simp only [hcLoop] at hs ⊢
    exact localResult_success p hv hs
  | succ n ih =>
    intro cur curh exp iters hv hs
    by_cases hg : p.is_goal cur.state = true
    · rw [hcLoop_goal p h n cur curh exp iters hg] at hs ⊢
      exact ⟨cur, rfl, hv, hg⟩
    · have hg2 := Bool.eq_false_iff.mpr hg
      cases hex : cur.expand p with
      | nil =>
        rw [hcLoop_isolated p h n cur curh exp iters hg2 hex] at hs ⊢
        exact localResult_success p hv hs
      | cons n0 ns =>
        by_cases hstall : curh ≤ h (pyMinBy (fun x => h x.state) n0 ns).state
        · rw [hcLoop_stall p h n cur curh exp iters n0 ns hg2 hex hstall]
            at hs ⊢
          exact localResult_success p hv hs
        · rw [hcLoop_move p h n cur curh exp iters n0 ns hg2 hex hstall]
            at hs ⊢
          refine ih _ _ _ _ ?_ hs
          refine validFrom_expand p hv ?_
          rw [hex]
          exact pyMinBy_mem (fun x => h x.state) ns n0

theorem saLoop_success_valid [DecidableEq α] (p : Problem σ α κ) (h : σ → ℚ)
    {ρ : Type} (gen : RandGen ρ) (alpha : ℚ) (mexp : ℚ → ℚ) :
    ∀ (fuel : ℕ) (cur : Node σ α) (curh T : ℚ) (seed : ρ) (exp iters : ℕ),
      ValidFrom p cur →
      (saLoop gen p h alpha mexp fuel cur curh T seed exp iters).success =
        true →
      ∃ m, (saLoop gen p h alpha mexp fuel cur curh T seed exp
          iters).solution_node = some m ∧
        ValidFrom p m ∧ p.is_goal m.state = true := by
  intro fuel
  induction fuel with
  | zero =>
    intro cur curh T seed exp iters hv hs
    simp only [saLoop] at hs ⊢
    exact localResult_success p hv hs
  | succ n ih =>
    intro cur curh T seed exp iters hv hs
    by_cases hg : p.is_goal cur.state = true
    · rw [show saLoop gen p h alpha mexp (n + 1) cur curh T seed exp iters =
        ⟨some cur, true, exp, iters + 1⟩ by
          simp only [saLoop]; rw [if_pos hg]] at hs ⊢
      exact ⟨cur, rfl, hv, hg⟩
    · have hg2 := Bool.eq_false_iff.mpr hg
      by_cases hT : T ≤ tempFloor
      · rw [show saLoop gen p h alpha mexp (n + 1) cur curh T seed exp iters =
          localResult p cur exp (iters + 1) by
            simp only [saLoop, hg2, Bool.false_eq_true, if_false]
            rw [if_pos hT]] at hs ⊢
        exact localResult_success p hv hs
      · cases hacts : p.actions cur.state with
        | nil =>
          rw [show saLoop gen p h alpha mexp (n + 1) cur curh T seed exp
              iters = localResult p cur exp (iters + 1) by
            simp only [saLoop, hg2, Bool.false_eq_true, if_false, hacts]
            rw [if_neg hT]] at hs ⊢
          exact localResult_success p hv hs
        | cons a0 as =>
          have hstep := sa_step_eqs gen p h alpha mexp n cur curh T seed
            exp iters a0 as hg2 hT hacts
          have haction : (a0 :: as).getD
              ((gen.nextNat seed).1 % (a0 :: as).length) a0 ∈
              p.actions cur.state := by
            rw [hacts]
            exact getD_mem (List.mem_cons_self _ _) _
          have hmoved : ValidFrom p (Node.child
              (p.result cur.state ((a0 :: as).getD
                ((gen.nextNat seed).1 % (a0 :: as).length) a0)) cur
              ((a0 :: as).getD ((gen.nextNat seed).1 % (a0 :: as).length) a0)
              (cur.path_cost + p.step_cost cur.state
                ((a0 :: as).getD ((gen.nextNat seed).1 % (a0 :: as).length) a0)
                (p.result cur.state ((a0 :: as).getD
                  ((gen.nextNat seed).1 % (a0 :: as).length) a0)))
              (cur.depth + 1)) :=
            validFrom_child p hv haction _ _
          by_cases hd : h (p.result cur.state ((a0 :: as).getD
              ((gen.nextNat seed).1 % (a0 :: as).length) a0)) - curh < 0
          · rw [hstep.1 hd] at hs ⊢
            exact ih _ _ _ _ _ _ hmoved hs
          · have hd2 := not_lt.mp hd
            by_cases hr : (gen.nextQ (gen.nextNat seed).2).1 <
                mexp (-(h (p.result cur.state ((a0 :: as).getD
                  ((gen.nextNat seed).1 % (a0 :: as).length) a0)) - curh) / T)
            · rw [(hstep.2 hd2).1 hr] at hs ⊢
              exact ih _ _ _ _ _ _ hmoved hs
            · rw [(hstep.2 hd2).2 hr] at hs ⊢
              exact ih _ _ _ _ _ _ hv hs

theorem idaActs_dichotomy [DecidableEq σ] [DecidableEq α]
    (p : Problem σ α κ) (bound : ℚ) (hb : -1 ≤ bound)
    (rec2 : Node σ α → ℚ → ℕ → WithTop ℚ × Option (Node σ α) × ℕ)
    (hrec : ∀ (child : Node σ α) (g2 : ℚ) (e2 : ℕ), ValidFrom p child →
      ((rec2 child g2 e2).1 = ((-1 : ℚ) : WithTop ℚ) →
        ∃ m, (rec2 child g2 e2).2.1 = some m ∧ ValidFrom p m ∧
          p.is_goal m.state = true) ∧
      ((rec2 child g2 e2).1 ≠ ((-1 : ℚ) : WithTop ℚ) →
        (bound : WithTop ℚ) < (rec2 child g2 e2).1))
    (node : Node σ α) (hnode : ValidFrom p node) (g : ℚ) :
    ∀ (as : List α) (minv : WithTop ℚ) (exp : ℕ),
      (∀ a ∈ as, a ∈ p.actions node.state) →
      (bound : WithTop ℚ) < minv →
      ((idaActs p rec2 node g as minv exp).1 = ((-1 : ℚ) : WithTop ℚ) →
        ∃ m, (idaActs p rec2 node g as minv exp).2.1 = some m ∧
          ValidFrom p m ∧ p.is_goal m.state = true) ∧
      ((idaActs p rec2 node g as minv exp).1 ≠ ((-1 : ℚ) : WithTop ℚ) →
        (bound : WithTop ℚ) < (idaActs p rec2 node g as minv exp).1) := by
  intro as
  induction as with
  | nil =>
    intro minv exp _ hmin
    simp only [idaActs]
    constructor
    · intro h1
      rw [h1] at hmin
      have : bound < -1 := WithTop.coe_lt_coe.mp hmin
      exact absurd this (not_lt.mpr hb)
    · intro _
      exact hmin
  | cons a as ih =>
    intro minv exp hsub hmin
    simp only [idaActs]
    by_cases hu : undoesParent node (p.result node.state a) = true
    · rw [if_pos hu]
      exact ih minv exp (fun x hx => hsub x (List.mem_cons_of_mem _ hx)) hmin
    · rw [if_neg hu]
      have hchild : ValidFrom p (Node.child (p.result node.state a) node a
          (g + p.step_cost node.state a (p.result node.state a))
          (node.depth + 1)) :=
        validFrom_child p hnode (hsub a (List.mem_cons_self _ _)) _ _
      have hr := hrec (Node.child (p.result node.state a) node a
          (g + p.step_cost node.state a (p.result node.state a))
          (node.depth + 1))
        (g + p.step_cost node.state a (p.result node.state a)) exp hchild
      by_cases hr1 : (rec2 (Node.child (p.result node.state a) node a
          (g + p.step_cost node.state a (p.result node.state a))
          (node.depth + 1))
          (g + p.step_cost node.state a (p.result node.state a)) exp).1 =
          ((-1 : ℚ) : WithTop ℚ)
      · rw [if_pos hr1]
        exact ⟨fun _ => hr.1 hr1, fun hne => absurd rfl hne⟩
      · rw [if_neg hr1]
        exact ih _ _ (fun x hx => hsub x (List.mem_cons_of_mem _ hx))
          (lt_min hmin (hr.2 hr1))

theorem idaRec_dichotomy [DecidableEq σ] [DecidableEq α]
    (p : Problem σ α κ) (h : σ → ℚ) (bound : ℚ) (hb : -1 ≤ bound) :
    ∀ (rf : ℕ) (node : Node σ α) (g : ℚ) (exp : ℕ), ValidFrom p node →
      ((idaRec p h bound rf node g exp).1 = ((-1 : ℚ) : WithTop ℚ) →
        ∃ m, (idaRec p h bound rf node g exp).2.1 = some m ∧
          ValidFrom p m ∧ p.is_goal m.state = true) ∧
      ((idaRec p h bound rf node g exp).1 ≠ ((-1 : ℚ) : WithTop ℚ) →
        (bound : WithTop ℚ) < (idaRec p h bound rf node g exp).1) := by
  intro rf
  induction rf with
  | zero =>
    intro node g exp _
    simp only [idaRec]
    exact ⟨fun h1 => absurd h1 WithTop.top_ne_coe,
      fun _ => WithTop.coe_lt_top bound⟩
  | succ n ih =>
    intro node g exp hnode
    simp only [idaRec]
    by_cases hf : bound < g + h node.state
    · rw [if_pos hf]
      constructor
      · intro h1
        have : g + h node.state = -1 := WithTop.coe_inj.mp h1
        rw [this] at hf
        exact absurd hf (not_lt.mpr hb)
      · intro _
        exact WithTop.coe_lt_coe.mpr hf
    · rw [if_neg hf]
      by_cases hgoal : p.is_goal node.state = true
      · rw [if_pos hgoal]
        exact ⟨fun _ => ⟨node, rfl, hnode, hgoal⟩, fun hne => absurd rfl hne⟩
      · rw [if_neg hgoal]
        exact idaActs_dichotomy p bound hb
          (fun child g2 e2 => idaRec p h bound n child g2 e2)
          (fun child g2 e2 hc => ih child g2 e2 hc) node hnode g
          (p.actions node.state) ⊤ (exp + 1) (fun _ hx => hx)
          (WithTop.coe_lt_top bound)

theorem idaOuter_success_valid [DecidableEq σ] [DecidableEq α]
    (p : Problem σ α κ) (h : σ → ℚ) (recFuel : ℕ) :
    ∀ (fuel : ℕ) (bound : ℚ) (exp : ℕ), -1 ≤ bound →
      (idaOuter p h recFuel fuel bound exp).success = true →
      ∃ m, (idaOuter p h recFuel fuel bound exp).solution_node = some m ∧
        ValidFrom p m ∧ p.is_goal m.state = true := by
  intro fuel
  induction fuel with
  | zero => intro bound exp _ hs; exact absurd hs (by simp [idaOuter])
  | succ n ih =>
    intro bound exp hb hs
    cases hr1 : (idaRec p h bound recFuel (Node.root p.initial) 0 exp).1 with
    | top =>
      have hr1n : (idaRec p h bound recFuel (Node.root p.initial) 0 exp).1 =
          (none : Option ℚ) := hr1
      rw [show idaOuter p h recFuel (n + 1) bound exp = ⟨none, false,
          (idaRec p h bound recFuel (Node.root p.initial) 0 exp).2.2, 0⟩ by
        simp only [idaOuter, hr1n]] at hs ⊢
      exact absurd hs (by simp)
    | coe t =>
      have hr1s : (idaRec p h bound recFuel (Node.root p.initial) 0 exp).1 =
          (some t : Option ℚ) := hr1
      by_cases ht : t = -1
      · subst ht
        rw [show idaOuter p h recFuel (n + 1) bound exp =
            ⟨(idaRec p h bound recFuel (Node.root p.initial) 0 exp).2.1, true,
              (idaRec p h bound recFuel (Node.root p.initial) 0 exp).2.2, 0⟩ by
          simp only [idaOuter, hr1s]; simp] at hs ⊢
        exact (idaRec_dichotomy p h bound hb recFuel (Node.root p.initial) 0
          exp (validFrom_root p)).1 hr1
      · rw [show idaOuter p h recFuel (n + 1) bound exp = idaOuter p h recFuel
            n t (idaRec p h bound recFuel (Node.root p.initial) 0 exp).2.2 by
          simp only [idaOuter, hr1s]; rw [if_neg ht]] at hs ⊢
        have hlt : (bound : WithTop ℚ) <
            (idaRec p h bound recFuel (Node.root p.initial) 0 exp).1 :=
          (idaRec_dichotomy p h bound hb recFuel (Node.root p.initial) 0 exp
            (validFrom_root p)).2
            (by rw [hr1]; exact fun hc => ht (WithTop.coe_inj.mp hc))
        rw [hr1] at hlt
        exact ih t _ (le_of_lt (lt_of_le_of_lt hb (WithTop.coe_lt_coe.mp hlt)))
          hs

theorem idaSearch_success_valid [DecidableEq σ] [DecidableEq α]
    (p : Problem σ α κ) (h : σ → ℚ) (recFuel outerFuel : ℕ)
    (hnn : ∀ s, 0 ≤ h s)
    (hs : (idaSearch p h recFuel outerFuel).success = true) :
    ∃ m, (idaSearch p h recFuel outerFuel).solution_node = some m ∧
      ValidFrom p m ∧ p.is_goal m.state = true :=
  idaOuter_success_valid p h recFuel outerFuel (h p.initial) 0
    (le_trans (by norm_num) (hnn p.initial)) hs

theorem gaEval_valid [DecidableEq σ] (p : Problem σ String κ) (h : σ → ℚ) :
    ∀ (chrom : List String) (cur : Node σ String), ValidFrom p cur →
      ValidFrom p (gaEval p h chrom cur).2 ∧
      ((gaEval p h chrom cur).1 = ⊤ →
        p.is_goal (gaEval p h chrom cur).2.state = true) := by
  intro chrom
  induction chrom with
  | nil =>
    intro cur hv
    simp only [gaEval]
    exact ⟨hv, fun hc => absurd hc (WithTop.coe_ne_top)⟩
  | cons a rest ih =>
    intro cur hv
    simp only [gaEval]
    by_cases ha : a ∈ p.actions cur.state
    · rw [if_pos ha]
      have hmoved : ValidFrom p (Node.child (p.result cur.state a) cur a
          (cur.path_cost + 1) (cur.depth + 1)) :=
        validFrom_child p hv ha _ _
      by_cases hg : p.is_goal (p.result cur.state a) = true
      · rw [if_pos hg]
        exact ⟨hmoved, fun _ => hg⟩
      · rw [if_neg hg]
        exact ih _ hmoved
    · rw [if_neg ha]
      exact ih _ hv

theorem gaEvalPop_success [DecidableEq σ] (p : Problem σ String κ)
    (h : σ → ℚ) (chromLen genIdx : ℕ) :
    ∀ (pop : List (List String)) (exp : ℕ)
      (scored : List (WithTop ℚ × List String)) (res : SearchResult σ String),
      gaEvalPop p h chromLen genIdx pop exp scored = Sum.inl res →
      ∃ m, res.solution_node = some m ∧ ValidFrom p m ∧
        p.is_goal m.state = true := by
  intro pop
  induction pop with
  | nil => intro exp scored res hres; exact absurd hres (by simp [gaEvalPop])
  | cons ind rest ih =>
    intro exp scored res hres
    simp only [gaEvalPop] at hres
    by_cases hfit : (gaEval p h ind (Node.root p.initial)).1 = ⊤
    · rw [if_pos hfit] at hres
      have hval := gaEval_valid p h ind (Node.root p.initial)
        (validFrom_root p)
      obtain rfl : (⟨some (gaEval p h ind (Node.root p.initial)).2, true,
          exp + chromLen, genIdx⟩ : SearchResult σ String) = res :=
        Sum.inl.inj hres
      exact ⟨(gaEval p h ind (Node.root p.initial)).2, rfl, hval.1,
        hval.2 hfit⟩
    · rw [if_neg hfit] at hres
      exact ih _ _ res hres

theorem gaGens_success_valid [DecidableEq σ] {ρ : Type} (gen : RandGen ρ)
    (p : Problem σ String κ) (h : σ → ℚ) (popSize chromLen maxGens : ℕ)
    (rate : ℚ) :
    ∀ (rem genIdx : ℕ) (pop : List (List String))
      (scored : List (WithTop ℚ × List String)) (seed : ρ) (exp : ℕ),
      (gaGens gen p h popSize chromLen maxGens rate rem genIdx pop scored
        seed exp).success = true →
      ∃ m, (gaGens gen p h popSize chromLen maxGens rate rem genIdx pop
          scored seed exp).solution_node = some m ∧
        ValidFrom p m ∧ p.is_goal m.state = true := by
  intro rem
  induction rem with
  | zero =>
    intro genIdx pop scored seed exp hs
    cases scored with
    | nil => exact absurd hs (by simp [gaGens])
    | cons best tl =>
      simp only [gaGens] at hs ⊢
      have hval := gaEval_valid p h best.2 (Node.root p.initial)
        (validFrom_root p)
      refine ⟨(gaEval p h best.2 (Node.root p.initial)).2, ?_, hval.1, hs⟩
      rw [if_pos hs]
  | succ n ih =>
    intro genIdx pop scored seed exp hs
    cases hev : gaEvalPop p h chromLen genIdx pop exp [] with
    | inl res =>
      rw [show gaGens gen p h popSize chromLen maxGens rate (n + 1) genIdx pop
          scored seed exp = res by simp only [gaGens, hev]] at hs ⊢
      obtain ⟨m, hm, hv, hg⟩ := gaEvalPop_success p h chromLen genIdx pop exp
        [] res hev
      have hsm : res.success = true := hs
      exact ⟨m, hm, hv, hg⟩
    | inr pr =>
      obtain ⟨scored2, exp2⟩ := pr
      cases hsort : pySortDesc Prod.fst scored2 with
      | nil =>
        rw [show gaGens gen p h popSize chromLen maxGens rate (n + 1) genIdx
            pop scored seed exp = gaGens gen p h popSize chromLen maxGens rate
            n (genIdx + 1) [] (pySortDesc Prod.fst scored2) seed exp2 by
          simp only [gaGens, hev, hsort]] at hs ⊢
        exact ih _ _ _ _ _ hs
      | cons b tl =>
        rw [show gaGens gen p h popSize chromLen maxGens rate (n + 1) genIdx
            pop scored seed exp = gaGens gen p h popSize chromLen maxGens rate
            n (genIdx + 1)
            (gaFill gen rate (pySortDesc Prod.fst scored2) (popSize - 1)
              [b.2] seed).1
            (pySortDesc Prod.fst scored2)
            (gaFill gen rate (pySortDesc Prod.fst scored2) (popSize - 1)
              [b.2] seed).2 exp2 by
          simp only [gaGens, hev, hsort]] at hs ⊢
        exact ih _ _ _ _ _ hs

theorem gaSearch_success_valid [DecidableEq σ] {ρ : Type} (gen : RandGen ρ)
    (p : Problem σ String κ) (h : σ → ℚ) (popSize : ℕ) (rate : ℚ)
    (maxGens chromLen : ℕ) (seed : ρ)
    (hs : (gaSearch gen p h popSize rate maxGens chromLen seed).success =
      true) :
    ∃ m, (gaSearch gen p h popSize rate maxGens chromLen
        seed).solution_node = some m ∧
      ValidFrom p m ∧ p.is_goal m.state = true :=
  gaGens_success_valid gen p h popSize chromLen maxGens rate maxGens 0
    (gaInitPop gen chromLen popSize seed).1 [] (gaInitPop gen chromLen popSize
      seed).2 0 hs

/-- C9: for every problem and every algorithm, a successful `SearchResult`
round-trips: folding the action fields of its solution path (root to goal,
non-root nodes) over the initial state via `result` yields a state that
satisfies `is_goal` and equals the solution node's state. For IDA* the
heuristic is assumed non-negative, as the spec's heuristic contract requires
(the `-1` success sentinel shares the float range with f-values). -/
theorem c9_roundtrip :
    (∀ (σ α κ : Type) [DecidableEq σ] [DecidableEq α] [DecidableEq κ]
      (p : Problem σ α κ) (h : σ → ℚ) (w : ℚ) (fuel : ℕ),
      (astarSearch p h w fuel).success = true →
      RoundTrip p (astarSearch p h w fuel)) ∧
    (∀ (σ α κ : Type) [DecidableEq σ] [DecidableEq α] [DecidableEq κ]
      (p : Problem σ α κ) (h : σ → ℚ) (fuel : ℕ),
      (greedySearch p h fuel).success = true →
      RoundTrip p (greedySearch p h fuel)) ∧
    (∀ (σ α κ : Type) [DecidableEq α] (p : Problem σ α κ) (h : σ → ℚ)
      (max_steps : ℕ),
      (hcSearch p h max_steps).success = true →
      RoundTrip p (hcSearch p h max_steps)) ∧
    (∀ (σ α κ ρ : Type) [DecidableEq α] (gen : RandGen ρ)
      (p : Problem σ α κ) (h : σ → ℚ) (T0 alpha : ℚ) (mexp : ℚ → ℚ)
      (max_steps : ℕ) (seed : ρ),
      (saSearch gen p h T0 alpha mexp max_steps seed).success = true →
      RoundTrip p (saSearch gen p h T0 alpha mexp max_steps seed)) ∧
    (∀ (σ α κ : Type) [DecidableEq σ] [DecidableEq α] (p : Problem σ α κ)
      (h : σ → ℚ) (recFuel outerFuel : ℕ), (∀ s, 0 ≤ h s) →
      (idaSearch p h recFuel outerFuel).success = true →
      RoundTrip p (idaSearch p h recFuel outerFuel)) ∧
    (∀ (σ κ ρ : Type) [DecidableEq σ] (gen : RandGen ρ)
      (p : Problem σ String κ) (h : σ → ℚ) (popSize : ℕ) (rate : ℚ)
      (maxGens chromLen : ℕ) (seed : ρ),
      (gaSearch gen p h popSize rate maxGens chromLen seed).success = true →
      RoundTrip p (gaSearch gen p h popSize rate maxGens chromLen seed)) := by
  refine ⟨?_, ?_, ?_, ?_, ?_, ?_⟩
  · intro σ α κ _ _ _ p h w fuel hs
    obtain ⟨m, hm, hv, hg⟩ := astarSearch_success_valid p h w fuel hs
    exact roundTrip_of_valid p hm hv hg
  · intro σ α κ _ _ _ p h fuel hs
    obtain ⟨m, hm, hv, hg⟩ := greedySearch_success_valid p h fuel hs
    exact roundTrip_of_valid p hm hv hg
  · intro σ α κ _ p h max_steps hs
    obtain ⟨m, hm, hv, hg⟩ := hcLoop_success_valid p h max_steps
      (Node.root p.initial) (h p.initial) 0 0 (validFrom_root p) hs
    exact roundTrip_of_valid p hm hv hg
  · intro σ α κ ρ _ gen p h T0 alpha mexp max_steps seed hs
    obtain ⟨m, hm, hv, hg⟩ := saLoop_success_valid p h gen alpha mexp
      max_steps (Node.root p.initial) (h p.initial) T0 seed 0 0
      (validFrom_root p) hs
    exact roundTrip_of_valid p hm hv hg
  · intro σ α κ _ _ p h recFuel outerFuel hnn hs
    obtain ⟨m, hm, hv, hg⟩ := idaSearch_success_valid p h recFuel outerFuel
      hnn hs
    exact roundTrip_of_valid p hm hv hg
  · intro σ κ ρ _ gen p h popSize rate maxGens chromLen seed hs
    obtain ⟨m, hm, hv, hg⟩ := gaSearch_success_valid gen p h popSize rate
      maxGens chromLen seed hs
    exact roundTrip_of_valid p hm hv hg

section
attribute [local semireducible] Rat.add Rat.mul Rat.sub Rat.inv

/-- Witness for C9: concrete successful runs of all six algorithms
round-trip. -/
theorem c9_roundtrip_witness :
    ((astarSearch probGoal (fun _ => 0) 1 1).success = true ∧
      RoundTrip probGoal (astarSearch probGoal (fun _ => 0) 1 1)) ∧
    ((greedySearch probGoal (fun _ => 0) 1).success = true ∧
      RoundTrip probGoal (greedySearch probGoal (fun _ => 0) 1)) ∧
    ((hcSearch probGoal (fun _ => 0) 0).success = true ∧
      RoundTrip probGoal (hcSearch probGoal (fun _ => 0) 0)) ∧
    ((saSearch unitGen probGoal (fun _ => 0) 1 1 (fun _ => 0) 0 ()).success =
        true ∧
      RoundTrip probGoal
        (saSearch unitGen probGoal (fun _ => 0) 1 1 (fun _ => 0) 0 ())) ∧
    ((∀ s : ℕ, 0 ≤ (0 : ℚ)) ∧
      (idaSearch probGoal (fun _ => 0) 1 1).success = true ∧
      RoundTrip probGoal (idaSearch probGoal (fun _ => 0) 1 1)) ∧
    ((gaSearch pairGen puzzle2 (fun _ => 0) 1 0 1 2 ([0, 1], [])).success =
        true ∧
      RoundTrip puzzle2
        (gaSearch pairGen puzzle2 (fun _ => 0) 1 0 1 2 ([0, 1], []))) := by
  have H := c9_roundtrip
  refine ⟨⟨rfl, H.1 ℕ ℕ ℕ probGoal (fun _ => 0) 1 1 rfl⟩,
    ⟨rfl, H.2.1 ℕ ℕ ℕ probGoal (fun _ => 0) 1 rfl⟩,
    ⟨rfl, H.2.2.1 ℕ ℕ ℕ probGoal (fun _ => 0) 0 rfl⟩,
    ⟨rfl, H.2.2.2.1 ℕ ℕ ℕ Unit unitGen probGoal (fun _ => 0) 1 1 (fun _ => 0)
      0 () rfl⟩,
    ⟨fun _ => le_refl 0, rfl, H.2.2.2.2.1 ℕ ℕ ℕ probGoal (fun _ => 0) 1 1
      (fun _ => le_refl 0) rfl⟩,
    ⟨rfl, H.2.2.2.2.2 (List ℕ) (List ℕ) (List ℕ × List ℚ) pairGen puzzle2
      (fun _ => 0) 1 0 1 2 ([0, 1], []) rfl⟩⟩

end

/-! ### A* optimality (C1) -/

theorem foldResult_append (p : Problem σ α κ) (xs ys : List α) (s : σ) :
    foldResult p s (xs ++ ys) = foldResult p (foldResult p s xs) ys := by
  simp [foldResult, List.foldl_append]

theorem legalRun_take [DecidableEq α] (p : Problem σ α κ) {s t : σ}
    {as : List α} (hrun : legalRun p s as = some t) (i : ℕ) :
    legalRun p s (as.take i) = some (foldResult p s (as.take i)) := by
  have hsplit := legalRun_append p (as.take i) (as.drop i) s
  rw [List.take_append_drop] at hsplit
  rw [hrun] at hsplit
  cases htake : legalRun p s (as.take i) with
  | none => rw [htake] at hsplit; simp at hsplit
  | some u =>
    have hfold : foldResult p s (as.take i) = u :=
      legalRun_eq_foldResult p (as.take i) s u htake
    rw [hfold]

theorem legalRun_drop [DecidableEq α] (p : Problem σ α κ) {s t : σ}
    {as : List α} (hrun : legalRun p s as = some t) (i : ℕ) :
    legalRun p (foldResult p s (as.take i)) (as.drop i) = some t := by
  have hsplit := legalRun_append p (as.take i) (as.drop i) s
  rw [List.take_append_drop] at hsplit
  rw [hrun, legalRun_take p hrun i] at hsplit
  simpa using hsplit.symm

/-- The state after the first `i` actions of a run. -/
def stateAt [DecidableEq α] (p : Problem σ α κ) (as : List α) (i : ℕ) : σ :=
  foldResult p p.initial (as.take i)

theorem stateAt_zero [DecidableEq α] (p : Problem σ α κ) (as : List α) :
    stateAt p as 0 = p.initial := rfl

theorem stateAt_length [DecidableEq α] (p : Problem σ α κ) {as : List α}
    {t : σ} (hrun : legalRun p p.initial as = some t) :
    stateAt p as as.length = t := by
  unfold stateAt
  rw [List.take_length]
  exact legalRun_eq_foldResult p as p.initial t hrun

theorem stateAt_step [DecidableEq α] (p : Problem σ α κ) {as : List α}
    {t : σ} (hrun : legalRun p p.initial as = some t) {i : ℕ}
    (hi : i < as.length) :
    as.get ⟨i, hi⟩ ∈ p.actions (stateAt p as i) ∧
    p.result (stateAt p as i) (as.get ⟨i, hi⟩) = stateAt p as (i + 1) := by
  have hdrop := legalRun_drop p hrun i
  rw [List.drop_eq_getElem_cons hi] at hdrop
  simp only [legalRun] at hdrop
  have hmem : as.get ⟨i, hi⟩ ∈ p.actions (stateAt p as i) := by
    by_contra hmem
    rw [if_neg (by simpa using hmem)] at hdrop
    exact absurd hdrop (by simp)
  refine ⟨hmem, ?_⟩
  unfold stateAt
  rw [List.take_succ, List.getElem?_eq_getElem hi]
  rw [foldResult_append]
  simp [foldResult]

/-- No proper prefix of the run ends in a goal state. -/
def NoEarlyGoal [DecidableEq α] (p : Problem σ α κ) (as : List α) : Prop :=
  ∀ i < as.length, p.is_goal (stateAt p as i) = false

theorem cut_first_goal [DecidableEq α] (p : Problem σ α κ) :
    ∀ (n : ℕ) (as : List α) (t : σ), as.length ≤ n →
      legalRun p p.initial as = some t → p.is_goal t = true →
      ∃ as2 t2, as2.length ≤ as.length ∧
        legalRun p p.initial as2 = some t2 ∧ p.is_goal t2 = true ∧
        NoEarlyGoal p as2 := by
  intro n
  induction n with
  | zero =>
    intro as t hlen hrun hgoal
    refine ⟨as, t, le_refl _, hrun, hgoal, ?_⟩
    intro i hi
    exact absurd (lt_of_lt_of_le hi hlen) (Nat.not_lt_zero i)
  | succ n ih =>
    intro as t hlen hrun hgoal
    by_cases hearly : ∃ i, i < as.length ∧ p.is_goal (stateAt p as i) = true
    · obtain ⟨i, hi, hgi⟩ := hearly
      have htake : legalRun p p.initial (as.take i) =
          some (stateAt p as i) := legalRun_take p hrun i
      have hlen2 : (as.take i).length ≤ n := by
        rw [List.length_take]
        omega
      obtain ⟨as2, t2, hle, h1, h2, h3⟩ :=
        ih (as.take i) (stateAt p as i) hlen2 htake hgi
      refine ⟨as2, t2, ?_, h1, h2, h3⟩
      calc as2.length ≤ (as.take i).length := hle
        _ ≤ as.length := by rw [List.length_take]; omega
    · refine ⟨as, t, le_refl _, hrun, hgoal, ?_⟩
      intro i hi
      by_contra hcon
      have hgi : p.is_goal (stateAt p as i) = true := by
        revert hcon
        cases p.is_goal (stateAt p as i) <;> simp
      exact hearly ⟨i, hi, hgi⟩

/-- Unit-cost validity: a valid node whose recorded path cost equals the
number of its actions. -/
def ValidU [DecidableEq α] (p : Problem σ α κ) (n : Node σ α) : Prop :=
  ValidFrom p n ∧ n.path_cost = (n.acts.length : ℚ)

theorem validU_root [DecidableEq α] (p : Problem σ α κ) :
    ValidU p (Node.root p.initial) :=
  ⟨validFrom_root p, by simp [Node.path_cost, Node.acts]⟩

theorem validU_expand [DecidableEq α] (p : Problem σ α κ)
    (hcost : ∀ s a t, p.step_cost s a t = 1)
    {n : Node σ α} (hn : ValidU p n) {ch : Node σ α}
    (hch : ch ∈ n.expand p) : ValidU p ch := by
  refine ⟨validFrom_expand p hn.1 hch, ?_⟩
  simp only [Node.expand, List.mem_map] at hch
  obtain ⟨a, ha, rfl⟩ := hch
  show n.path_cost + p.step_cost n.state a (p.result n.state a) =
    ((n.acts ++ [a]).length : ℚ)
  rw [hcost, hn.2]
  push_cast
  simp

theorem bestBeats_true_iff (b : Option ℚ) (c : ℚ) :
    bestBeats b c = true ↔ ∃ v, b = some v ∧ v ≤ c := by
  cases b with
  | none => simp [bestBeats]
  | some v => simp [bestBeats]

theorem bestBeats_false_iff (b : Option ℚ) (c : ℚ) :
    bestBeats b c = false ↔ b = none ∨ ∃ v, b = some v ∧ c < v := by
  cases b with
  | none => simp [bestBeats]
  | some v => simp [bestBeats, not_le]

/-- There is a frontier entry for the `i`-th path state whose recorded cost is
at most `i`. -/
def frontierHas [DecidableEq α] (p : Problem σ α κ) (st : AState σ α κ)
    (as : List α) (i : ℕ) : Prop :=
  ∃ e ∈ st.frontier, e.node.state = stateAt p as i ∧
    e.node.path_cost ≤ (i : ℚ)

/-- The best-cost map records a cost at most `i` for the key of the `i`-th
path state. -/
def closedAt [DecidableEq α] (p : Problem σ α κ) (st : AState σ α κ)
    (as : List α) (i : ℕ) : Prop :=
  ∃ v, st.best (p.state_key (stateAt p as i)) = some v ∧ v ≤ (i : ℚ)

/-- The A* loop invariant (weight 1, unit step costs): every frontier entry
carries its f-value and a unit-cost-valid node; every recorded key belongs to
some non-goal state; and along every goal path with no early goal, some path
position is on the frontier (cheaply) or closed (cheaply), closed positions
propagating to their successors. -/
structure AInv [DecidableEq α] (p : Problem σ α κ) (h : σ → ℚ)
    (st : AState σ α κ) : Prop where
  fok : ∀ e ∈ st.frontier, e.f = fval h 1 e.node ∧ ValidU p e.node
  bok : ∀ k v, st.best k = some v →
    ∃ s, p.state_key s = k ∧ p.is_goal s = false
  path1 : ∀ as t, legalRun p p.initial as = some t → p.is_goal t = true →
    NoEarlyGoal p as → ∃ i, i ≤ as.length ∧
      (frontierHas p st as i ∨ closedAt p st as i)
  path2 : ∀ as t, legalRun p p.initial as = some t → p.is_goal t = true →
    NoEarlyGoal p as → ∀ i, i < as.length → closedAt p st as i →
      frontierHas p st as (i + 1) ∨ closedAt p st as (i + 1)

theorem AInv_init [DecidableEq α] [DecidableEq κ] (p : Problem σ α κ)
    (h : σ → ℚ) :
    AInv p h ⟨[⟨fval h 1 (Node.root p.initial : Node σ α), 0,
      Node.root p.initial⟩], 0, fun _ => none, 0⟩ := by
  refine ⟨?_, ?_, ?_, ?_⟩
  · intro e he
    rw [List.mem_singleton] at he
    subst he
    exact ⟨rfl, validU_root p⟩
  · intro k v hv
    exact absurd hv (by simp)
  · intro as t hrun hg hne
    refine ⟨0, Nat.zero_le _, Or.inl
      ⟨⟨fval h 1 (Node.root p.initial : Node σ α), 0, Node.root p.initial⟩,
        List.mem_singleton.mpr rfl, ?_, ?_⟩⟩
    · simp [Node.state, stateAt_zero]
    · simp [Node.path_cost]
  · intro as t _ _ _ i _ hcl
    obtain ⟨v, hv, _⟩ := hcl
    exact absurd hv (by simp)

theorem AInv_skip [DecidableEq α] [DecidableEq κ] (p : Problem σ α κ)
    (h : σ → ℚ) {st : AState σ α κ} {e : Entry σ α}
    {rest : List (Entry σ α)} (inv : AInv p h st)
    (hpop : popMin st.frontier = some (e, rest))
    (hbeat : bestBeats (st.best (p.state_key e.node.state))
      e.node.path_cost = true) :
    AInv p h ⟨rest, st.counter, st.best, st.expanded⟩ := by
  have hrmem : ∀ x ∈ rest, x ∈ st.frontier := fun x hx =>
    (popMin_perm hpop).symm.subset (List.mem_cons_of_mem _ hx)
  obtain ⟨v0, hv0, hv0le⟩ :=
    (bestBeats_true_iff _ _).mp hbeat
  have hsplit : ∀ x ∈ st.frontier, x = e ∨ x ∈ rest := by
    intro x hx
    have := (popMin_perm hpop).subset hx
    simpa using this
  refine ⟨fun x hx => inv.fok x (hrmem x hx), inv.bok, ?_, ?_⟩
  · intro as t hrun hg hne
    obtain ⟨i, hi, hcase⟩ := inv.path1 as t hrun hg hne
    rcases hcase with ⟨e2, he2, hstate, hcost⟩ | hcl
    · rcases hsplit e2 he2 with rfl | hr
      · refine ⟨i, hi, Or.inr ⟨v0, ?_, le_trans hv0le hcost⟩⟩
        rw [← hstate]
        exact hv0
      · exact ⟨i, hi, Or.inl ⟨e2, hr, hstate, hcost⟩⟩
    · exact ⟨i, hi, Or.inr hcl⟩
  · intro as t hrun hg hne i hil hcl
    rcases inv.path2 as t hrun hg hne i hil hcl with
      ⟨e2, he2, hstate, hcost⟩ | hcl2
    · rcases hsplit e2 he2 with rfl | hr
      · refine Or.inr ⟨v0, ?_, le_trans hv0le hcost⟩
        rw [← hstate]
        exact hv0
      · exact Or.inl ⟨e2, hr, hstate, hcost⟩
    · exact Or.inr hcl2

theorem AInv_expand [DecidableEq α] [DecidableEq κ] (p : Problem σ α κ)
    (h : σ → ℚ) (hinj : Function.Injective p.state_key)
    (hcost : ∀ s a t, p.step_cost s a t = 1)
    {st : AState σ α κ} {e : Entry σ α} {rest : List (Entry σ α)}
    (inv : AInv p h st) (hpop : popMin st.frontier = some (e, rest))
    (hgoal : p.is_goal e.node.state = false)
    (hbeat : bestBeats (st.best (p.state_key e.node.state))
      e.node.path_cost = false) :
    AInv p h ⟨(pushChildren p h 1
        (updBest st.best (p.state_key e.node.state) e.node.path_cost)
        (e.node.expand p) rest st.counter).1,
      (pushChildren p h 1
        (updBest st.best (p.state_key e.node.state) e.node.path_cost)
        (e.node.expand p) rest st.counter).2,
      updBest st.best (p.state_key e.node.state) e.node.path_cost,
      st.expanded + 1⟩ := by
  set best2 := updBest st.best (p.state_key e.node.state) e.node.path_cost
    with hbest2
  have hrmem : ∀ x ∈ rest, x ∈ st.frontier := fun x hx =>
    (popMin_perm hpop).symm.subset (List.mem_cons_of_mem _ hx)
  have hsplit : ∀ x ∈ st.frontier, x = e ∨ x ∈ rest := by
    intro x hx
    have := (popMin_perm hpop).subset hx
    simpa using this
  have heval : ValidU p e.node := (inv.fok e (popMin_mem hpop)).2
  have hlook_eq : ∀ k2, k2 = p.state_key e.node.state →
      best2 k2 = some e.node.path_cost := by
    intro k2 hk
    simp [hbest2, updBest, hk]
  have hlook_ne : ∀ k2, k2 ≠ p.state_key e.node.state →
      best2 k2 = st.best k2 := by
    intro k2 hk
    simp [hbest2, updBest, hk]
  have hmono : ∀ (as : List α) (i : ℕ), closedAt p st as i →
      ∃ v, best2 (p.state_key (stateAt p as i)) = some v ∧ v ≤ (i : ℚ) := by
    intro as i hcl
    obtain ⟨v, hv, hvle⟩ := hcl
    by_cases hk : p.state_key (stateAt p as i) = p.state_key e.node.state
    · rcases (bestBeats_false_iff _ _).mp hbeat with hnone | ⟨v2, hv2, hlt⟩
      · rw [hk] at hv
        rw [hnone] at hv
        exact absurd hv (by simp)
      · rw [hk] at hv
        rw [hv2] at hv
        have hveq : v2 = v := Option.some.inj hv
        refine ⟨e.node.path_cost, hlook_eq _ hk, ?_⟩
        exact le_trans (le_of_lt (lt_of_lt_of_le hlt (le_of_eq hveq))) hvle
    · exact ⟨v, by rw [hlook_ne _ hk]; exact hv, hvle⟩
  refine ⟨?_, ?_, ?_, ?_⟩
  · intro x hx
    rcases pushChildren_mem p h 1 best2 (e.node.expand p) rest st.counter x hx
      with hin | ⟨c2, hc2, hnode, hf⟩
    · exact inv.fok x (hrmem x hin)
    · refine ⟨?_, ?_⟩
      · rw [hf, hnode]
      · rw [hnode]
        exact validU_expand p hcost heval hc2
  · intro k v hv
    by_cases hk : k = p.state_key e.node.state
    · exact ⟨e.node.state, hk.symm, hgoal⟩
    · rw [show (⟨(pushChildren p h 1 best2 (e.node.expand p) rest
          st.counter).1, (pushChildren p h 1 best2 (e.node.expand p) rest
          st.counter).2, best2, st.expanded + 1⟩ : AState σ α κ).best = best2
          from rfl] at hv
      rw [hlook_ne k hk] at hv
      exact inv.bok k v hv
  · intro as t hrun hg hne
    obtain ⟨i, hi, hcase⟩ := inv.path1 as t hrun hg hne
    rcases hcase with ⟨e2, he2, hstate, hcostle⟩ | hcl
    · rcases hsplit e2 he2 with heq | hr
      · subst heq
        exact ⟨i, hi, Or.inr ⟨e2.node.path_cost,
          hlook_eq _ (by rw [← hstate]), hcostle⟩⟩
      · exact ⟨i, hi, Or.inl ⟨e2,
          pushChildren_base p h 1 best2 (e.node.expand p) rest st.counter e2
            hr, hstate, hcostle⟩⟩
    · exact ⟨i, hi, Or.inr (hmono as i hcl)⟩
  · intro as t hrun hg hne i hil hclnew
    by_cases hk : p.state_key (stateAt p as i) = p.state_key e.node.state
    · have hse : stateAt p as i = e.node.state := hinj hk
      obtain ⟨v, hv, hvle⟩ := hclnew
      have hveq : v = e.node.path_cost := by
        rw [show (⟨(pushChildren p h 1 best2 (e.node.expand p) rest
            st.counter).1, (pushChildren p h 1 best2 (e.node.expand p) rest
            st.counter).2, best2, st.expanded + 1⟩ : AState σ α κ).best =
            best2 from rfl] at hv
        rw [hlook_eq _ hk] at hv
        exact (Option.some.inj hv).symm
      have hcostle : e.node.path_cost ≤ (i : ℚ) := hveq ▸ hvle
      have hstep := stateAt_step p hrun hil
      rw [hse] at hstep
      have hchmem : (Node.child
          (p.result e.node.state (as.get ⟨i, hil⟩)) e.node (as.get ⟨i, hil⟩)
          (e.node.path_cost + p.step_cost e.node.state (as.get ⟨i, hil⟩)
            (p.result e.node.state (as.get ⟨i, hil⟩)))
          (e.node.depth + 1)) ∈ e.node.expand p := by
        simp only [Node.expand, List.mem_map]
        exact ⟨as.get ⟨i, hil⟩, hstep.1, rfl⟩
      have hchstate : (Node.child
          (p.result e.node.state (as.get ⟨i, hil⟩)) e.node (as.get ⟨i, hil⟩)
          (e.node.path_cost + p.step_cost e.node.state (as.get ⟨i, hil⟩)
            (p.result e.node.state (as.get ⟨i, hil⟩)))
          (e.node.depth + 1)).state = stateAt p as (i + 1) := by
        show p.result e.node.state (as.get ⟨i, hil⟩) = stateAt p as (i + 1)
        exact hstep.2
      have hchcost : (Node.child
          (p.result e.node.state (as.get ⟨i, hil⟩)) e.node (as.get ⟨i, hil⟩)
          (e.node.path_cost + p.step_cost e.node.state (as.get ⟨i, hil⟩)
            (p.result e.node.state (as.get ⟨i, hil⟩)))
          (e.node.depth + 1)).path_cost ≤ ((i + 1 : ℕ) : ℚ) := by
        show e.node.path_cost + p.step_cost e.node.state (as.get ⟨i, hil⟩)
          (p.result e.node.state (as.get ⟨i, hil⟩)) ≤ ((i + 1 : ℕ) : ℚ)
        rw [hcost]
        push_cast
        linarith
      by_cases hpc2 : bestBeats (best2 (p.state_key
          (p.result e.node.state (as.get ⟨i, hil⟩))))
          (e.node.path_cost + p.step_cost e.node.state (as.get ⟨i, hil⟩)
            (p.result e.node.state (as.get ⟨i, hil⟩))) = true
      · obtain ⟨v2, hv2, hv2le⟩ := (bestBeats_true_iff _ _).mp hpc2
        refine Or.inr ⟨v2, ?_, le_trans hv2le (by
          have := hchcost
          simpa using this)⟩
        rw [show p.state_key (stateAt p as (i + 1)) = p.state_key
            (p.result e.node.state (as.get ⟨i, hil⟩)) by rw [hstep.2]]
        exact hv2
      · have hpc2f : bestBeats (best2 (p.state_key
            (p.result e.node.state (as.get ⟨i, hil⟩))))
            (e.node.path_cost + p.step_cost e.node.state (as.get ⟨i, hil⟩)
              (p.result e.node.state (as.get ⟨i, hil⟩))) = false :=
          Bool.eq_false_iff.mpr hpc2
        have hmap := pushChildren_nodes p h 1 best2 (e.node.expand p) rest
          st.counter
        have hfilter : (Node.child
            (p.result e.node.state (as.get ⟨i, hil⟩)) e.node
            (as.get ⟨i, hil⟩)
            (e.node.path_cost + p.step_cost e.node.state (as.get ⟨i, hil⟩)
              (p.result e.node.state (as.get ⟨i, hil⟩)))
            (e.node.depth + 1)) ∈ (e.node.expand p).filter
            (fun c => !(bestBeats (best2 (p.state_key c.state))
              c.path_cost)) := by
          refine List.mem_filter.mpr ⟨hchmem, ?_⟩
          change (!(bestBeats (best2 (p.state_key
            (p.result e.node.state (as.get ⟨i, hil⟩))))
            (e.node.path_cost + p.step_cost e.node.state (as.get ⟨i, hil⟩)
              (p.result e.node.state (as.get ⟨i, hil⟩))))) = true
          rw [hpc2f]
          rfl
        have hinmap : (Node.child
            (p.result e.node.state (as.get ⟨i, hil⟩)) e.node
            (as.get ⟨i, hil⟩)
            (e.node.path_cost + p.step_cost e.node.state (as.get ⟨i, hil⟩)
              (p.result e.node.state (as.get ⟨i, hil⟩)))
            (e.node.depth + 1)) ∈ (pushChildren p h 1 best2
            (e.node.expand p) rest st.counter).1.map Entry.node := by
          rw [hmap]
          exact List.mem_append_right _ hfilter
        obtain ⟨en, hen, henode⟩ := List.mem_map.mp hinmap
        refine Or.inl ⟨en, hen, ?_, ?_⟩
        · rw [henode]
          exact hchstate
        · rw [henode]
          have := hchcost
          simpa using this
    · have hclold : closedAt p st as i := by
        obtain ⟨v, hv, hvle⟩ := hclnew
        rw [show (⟨(pushChildren p h 1 best2 (e.node.expand p) rest
            st.counter).1, (pushChildren p h 1 best2 (e.node.expand p) rest
            st.counter).2, best2, st.expanded + 1⟩ : AState σ α κ).best =
            best2 from rfl] at hv
        rw [hlook_ne _ hk] at hv
        exact ⟨v, hv, hvle⟩
      rcases inv.path2 as t hrun hg hne i hil hclold with
        ⟨e2, he2, hstate, hcostle⟩ | hcl2
      · rcases hsplit e2 he2 with heq | hr
        · subst heq
          exact Or.inr ⟨e2.node.path_cost, hlook_eq _ (by rw [← hstate]),
            hcostle⟩
        · exact Or.inl ⟨e2, pushChildren_base p h 1 best2 (e.node.expand p)
            rest st.counter e2 hr, hstate, hcostle⟩
      · exact Or.inr (hmono as (i + 1) hcl2)

theorem AInv_chain [DecidableEq α] [DecidableEq κ] (p : Problem σ α κ)
    (h : σ → ℚ) (hinj : Function.Injective p.state_key)
    {st : AState σ α κ} (inv : AInv p h st)
    {as : List α} {t : σ} (hrun : legalRun p p.initial as = some t)
    (hg : p.is_goal t = true) (hne : NoEarlyGoal p as) :
    ∃ j, j ≤ as.length ∧ frontierHas p st as j := by
  have hnotk : ¬ closedAt p st as as.length := by
    rintro ⟨v, hv, -⟩
    obtain ⟨s, hkey, hsgoal⟩ := inv.bok _ _ hv
    have hseq : s = stateAt p as as.length := hinj hkey
    rw [stateAt_length p hrun] at hseq
    rw [hseq, hg] at hsgoal
    exact absurd hsgoal (by simp)
  have chain : ∀ (d i : ℕ), i ≤ as.length → as.length - i ≤ d →
      (frontierHas p st as i ∨ closedAt p st as i) →
      ∃ j, j ≤ as.length ∧ frontierHas p st as j := by
    intro d
    induction d with
    | zero =>
      intro i hi hd hcase
      have hieq : i = as.length := by omega
      rcases hcase with hf | hc
      · exact ⟨i, hi, hf⟩
      · rw [hieq] at hc
        exact absurd hc hnotk
    | succ d ih =>
      intro i hi hd hcase
      rcases hcase with hf | hc
      · exact ⟨i, hi, hf⟩
      · by_cases hik : i = as.length
        · rw [hik] at hc
          exact absurd hc hnotk
        · have hil : i < as.length := lt_of_le_of_ne hi hik
          rcases inv.path2 as t hrun hg hne i hil hc with hf2 | hc2
          · exact ⟨i + 1, hil, hf2⟩
          · exact ih (i + 1) hil (by omega) (Or.inr hc2)
  obtain ⟨i, hi, hcase⟩ := inv.path1 as t hrun hg hne
  exact chain (as.length - i) i hi (le_refl _) hcase

theorem AInv_goal_bound [DecidableEq α] [DecidableEq κ] (p : Problem σ α κ)
    (h : σ → ℚ) (hinj : Function.Injective p.state_key)
    (hadm : ∀ (s : σ) (bs : List α) (u : σ), legalRun p s bs = some u →
      p.is_goal u = true → h s ≤ (bs.length : ℚ))
    (hnn : ∀ s, 0 ≤ h s)
    {st : AState σ α κ} {e : Entry σ α} {rest : List (Entry σ α)}
    (inv : AInv p h st) (hpop : popMin st.frontier = some (e, rest))
    {as : List α} {t : σ} (hrun : legalRun p p.initial as = some t)
    (hg : p.is_goal t = true) (hne : NoEarlyGoal p as) :
    e.node.path_cost ≤ (as.length : ℚ) := by
  obtain ⟨j, hj, e2, he2, hstate, hcostle⟩ :=
    AInv_chain p h hinj inv hrun hg hne
  have hmin : e.f ≤ e2.f := popMin_min hpop e2 he2
  have hfe : e.f = fval h 1 e.node := (inv.fok e (popMin_mem hpop)).1
  have hfe2 : e2.f = fval h 1 e2.node := (inv.fok e2 he2).1
  have hdrop : legalRun p (stateAt p as j) (as.drop j) = some t :=
    legalRun_drop p hrun j
  have hadmj : h (stateAt p as j) ≤ ((as.length - j : ℕ) : ℚ) := by
    have hd := hadm (stateAt p as j) (as.drop j) t hdrop hg
    simpa [List.length_drop] using hd
  have hnn1 : 0 ≤ h e.node.state := hnn _
  have hfe2s : e2.f = e2.node.path_cost + 1 * h (stateAt p as j) := by
    rw [hfe2]
    show e2.node.path_cost + 1 * h e2.node.state =
      e2.node.path_cost + 1 * h (stateAt p as j)
    rw [hstate]
  have hjle : ((j : ℚ) + ((as.length - j : ℕ) : ℚ)) = (as.length : ℚ) := by
    rw [Nat.cast_sub hj]
    ring
  have hchain : e.node.path_cost + 1 * h e.node.state ≤ (as.length : ℚ) := by
    calc e.node.path_cost + 1 * h e.node.state = e.f := by rw [hfe]; rfl
      _ ≤ e2.f := hmin
      _ = e2.node.path_cost + 1 * h (stateAt p as j) := hfe2s
      _ ≤ (j : ℚ) + ((as.length - j : ℕ) : ℚ) := by linarith
      _ = (as.length : ℚ) := hjle
  linarith

theorem astarLoop_optimal [DecidableEq α] [DecidableEq κ] (p : Problem σ α κ)
    (h : σ → ℚ) (hinj : Function.Injective p.state_key)
    (hcost : ∀ s a t, p.step_cost s a t = 1) (hnn : ∀ s, 0 ≤ h s)
    (hadm : ∀ (s : σ) (bs : List α) (u : σ), legalRun p s bs = some u →
      p.is_goal u = true → h s ≤ (bs.length : ℚ)) :
    ∀ (fuel : ℕ) (st : AState σ α κ), AInv p h st →
      (astarLoop p h 1 fuel st).success = true →
      ∃ m, (astarLoop p h 1 fuel st).solution_node = some m ∧
        ValidU p m ∧ p.is_goal m.state = true ∧
        ∀ (as : List α) (t : σ), legalRun p p.initial as = some t →
          p.is_goal t = true → m.path_cost ≤ (as.length : ℚ) := by
  intro fuel
  induction fuel with
  | zero => intro st _ hs; exact absurd hs (by simp [astarLoop])
  | succ n ih =>
    intro st hinv hs
    cases hpop : popMin st.frontier with
    | none =>
      rw [show astarLoop p h 1 (n + 1) st =
        ⟨none, false, st.expanded, 0⟩ by simp only [astarLoop, hpop]] at hs
      exact absurd hs (by simp)
    | some pr =>
      obtain ⟨e, rest⟩ := pr
      by_cases hg : p.is_goal e.node.state = true
      · rw [astarLoop_goal_eq p h 1 n hpop hg] at hs ⊢
        refine ⟨e.node, rfl, (hinv.fok e (popMin_mem hpop)).2, hg, ?_⟩
        intro as t hrun hgt
        obtain ⟨as2, t2, hle, hrun2, hg2, hne2⟩ :=
          cut_first_goal p as.length as t (le_refl _) hrun hgt
        have hbd := AInv_goal_bound p h hinj hadm hnn hinv hpop hrun2 hg2 hne2
        calc e.node.path_cost ≤ (as2.length : ℚ) := hbd
          _ ≤ (as.length : ℚ) := by exact_mod_cast hle
      · have hg2 : p.is_goal e.node.state = false := Bool.eq_false_iff.mpr hg
        by_cases hb : bestBeats (st.best (p.state_key e.node.state))
            e.node.path_cost = true
        · rw [astarLoop_skip_eq p h 1 n hpop hg2 hb] at hs ⊢
          exact ih _ (AInv_skip p h hinv hpop hb) hs
        · have hb2 := Bool.eq_false_iff.mpr hb
          rw [astarLoop_expand_eq p h 1 n hpop hg2 hb2] at hs ⊢
          exact ih _ (AInv_expand p h hinj hcost hinv hpop hg2 hb2) hs

/-- A problem with a `state_key` collision: states 1 and 2 share key 1.
From the initial state 0, action 1 reaches state 2 which reaches the goal 5
in one more step (total cost 2); action 2 reaches state 3 which reaches 5
through 4 (total cost 3); action 0 reaches the dead end 1, which is closed
first, so the later pop of state 2 is discarded by the best-cost test. -/
def pBad : Problem ℕ ℕ ℕ :=
  ⟨0,
    fun s => if s = 0 then [0, 1, 2]
      else if s = 2 ∨ s = 3 ∨ s = 4 then [0] else [],
    fun s a => if s = 0 then (if a = 0 then 1 else if a = 1 then 2 else 3)
      else if s = 2 then 5 else if s = 3 then 4 else if s = 4 then 5 else s,
    fun _ _ _ => 1, fun s => s == 5, fun s => if s = 2 then 1 else s⟩

/-- The zero heuristic (nonnegative, admissible and consistent). -/
def hBad : ℕ → ℚ := fun _ => 0

/-- A two-state line with an injective state key: action 0 moves the initial
state 0 to the goal 1, and the goal has no actions. -/
def probOpt : Problem ℕ ℕ ℕ :=
  ⟨0, fun s => if s = 0 then [0] else [], fun s _ => s + 1, fun _ _ _ => 1,
    fun s => s == 1, id⟩

/-- C1 (amended): for every problem with an injective `state_key` and unit
step costs, and every nonnegative, admissible and consistent heuristic, a
successful `AStarSearch` run with weight 1 returns a `solution_cost` equal
to the true minimum path cost (= minimum number of actions) over all legal
goal paths from the initial state. Without injectivity of `state_key` the
original claim fails (`c1_astar_counterexample`). -/
theorem c1_astar_optimal {σ α κ : Type} [DecidableEq α] [DecidableEq κ]
    (p : Problem σ α κ) (h : σ → ℚ) (fuel : ℕ)
    (hinj : Function.Injective p.state_key)
    (hcost : ∀ s a t, p.step_cost s a t = 1)
    (hnn : ∀ s, 0 ≤ h s)
    (hadm : ∀ (s : σ) (bs : List α) (u : σ), legalRun p s bs = some u →
      p.is_goal u = true → h s ≤ (bs.length : ℚ))
    (hcons : ∀ (s : σ) (a : α), a ∈ p.actions s → h s ≤ 1 + h (p.result s a))
    (hsucc : (astarSearch p h 1 fuel).success = true) :
    ∃ k : ℕ,
      (astarSearch p h 1 fuel).solution_cost = ((k : ℚ) : WithTop ℚ) ∧
      (∃ (as : List α) (t : σ), as.length = k ∧
        legalRun p p.initial as = some t ∧ p.is_goal t = true) ∧
      ∀ (as : List α) (t : σ), legalRun p p.initial as = some t →
        p.is_goal t = true → k ≤ as.length := by
  have hsucc2 : (astarLoop p h 1 fuel
      ⟨[⟨fval h 1 (Node.root p.initial : Node σ α), 0, Node.root p.initial⟩],
        0, fun _ => none, 0⟩).success = true := hsucc
  obtain ⟨m, hm, hvu, hgm, hmin⟩ :=
    astarLoop_optimal p h hinj hcost hnn hadm fuel _ (AInv_init p h) hsucc2
  have hm2 : (astarSearch p h 1 fuel).solution_node = some m := hm
  refine ⟨m.acts.length, ?_, ⟨m.acts, m.state, rfl, hvu.1, hgm⟩, ?_⟩
  · simp only [SearchResult.solution_cost, hm2, hvu.2]
  · intro as t hrun hgt
    have hb := hmin as t hrun hgt
    rw [hvu.2] at hb
    exact_mod_cast hb

section
attribute [local semireducible] Rat.add Rat.mul Rat.sub Rat.inv

/-- C1 counterexample: `state_key` is not injective on `pBad`, and the key
collision breaks optimality. With unit costs and the zero heuristic
(nonnegative, admissible, consistent), A* succeeds and there is a legal goal
path of length 2, yet the returned `solution_cost` is 3. -/
theorem c1_astar_counterexample :
    (∀ s a t, pBad.step_cost s a t = 1) ∧
    (∀ s : ℕ, 0 ≤ hBad s) ∧
    (∀ (s : ℕ) (bs : List ℕ) (u : ℕ), legalRun pBad s bs = some u →
      pBad.is_goal u = true → hBad s ≤ (bs.length : ℚ)) ∧
    (∀ (s a : ℕ), a ∈ pBad.actions s →
      hBad s ≤ 1 + hBad (pBad.result s a)) ∧
    (astarSearch pBad hBad 1 10).success = true ∧
    legalRun pBad pBad.initial [1, 0] = some 5 ∧
    pBad.is_goal 5 = true ∧
    ([1, 0] : List ℕ).length = 2 ∧
    (astarSearch pBad hBad 1 10).solution_cost = ((3 : ℚ) : WithTop ℚ) ∧
    ((2 : ℚ) : WithTop ℚ) < (astarSearch pBad hBad 1 10).solution_cost := by
  refine ⟨fun _ _ _ => rfl, fun _ => le_refl 0,
    fun s bs u _ _ => Nat.cast_nonneg _, fun s a _ => by norm_num [hBad],
    by rfl, by rfl, by rfl, rfl, by rfl, ?_⟩
  rw [show (astarSearch pBad hBad 1 10).solution_cost =
    ((3 : ℚ) : WithTop ℚ) from by rfl]
  exact_mod_cast (by norm_num : (2 : ℚ) < 3)

/-- Witness for C1 (amended): on the two-state line `probOpt` A* succeeds,
all hypotheses hold, and the reported cost is the optimum. -/
theorem c1_astar_optimal_witness :
    (Function.Injective probOpt.state_key ∧
      (∀ s a t, probOpt.step_cost s a t = 1) ∧
      (astarSearch probOpt (fun _ => (0 : ℚ)) 1 3).success = true) ∧
    ∃ k : ℕ,
      (astarSearch probOpt (fun _ => (0 : ℚ)) 1 3).solution_cost =
        ((k : ℚ) : WithTop ℚ) ∧
      (∃ (as : List ℕ) (t : ℕ), as.length = k ∧
        legalRun probOpt probOpt.initial as = some t ∧
        probOpt.is_goal t = true) ∧
      ∀ (as : List ℕ) (t : ℕ),
        legalRun probOpt probOpt.initial as = some t →
        probOpt.is_goal t = true → k ≤ as.length :=
  ⟨⟨fun a b hab => hab, fun _ _ _ => rfl, by rfl⟩,
    c1_astar_optimal probOpt (fun _ => (0 : ℚ)) 3 (fun a b hab => hab)
      (fun _ _ _ => rfl) (fun _ => le_refl 0)
      (fun s bs u _ _ => Nat.cast_nonneg _) (fun s a _ => by norm_num)
      (by rfl)⟩

end
